import Mathlib

/-! The attribution engine of gitfame, `cmd/gitfame/main.go`.

A shallow embedding of the blame parser (`processFile`), the empty-file
fallback (`processEmptyFile`), the aggregation tables (`stats`, `commits`,
`files`) and the ranking comparator of `gitfame`.

Modelling conventions.

* A Go `string` is a `List Char` (`Str`): the text is taken to be valid UTF-8,
  on which Go's byte-wise comparison agrees with the comparison of code points.
* A Go `map[string]V` is an association list in insertion order; reading an
  absent key gives the zero value, as in Go.
* `stats[a]` is a `map[string]int` that is only ever indexed with the three
  keys "lines", "commits" and "files"; it is the record `Stat`.
* Go `int` values are `Int`; `strconv.Atoi` keeps its clamping to the 64-bit
  range.  The counters only count lines, commits and files that were read, so
  their arithmetic is not wrapped.
* The text returned by the `git` subprocesses is an argument; `none` stands for
  a run that does not return (an index out of range, or `os.Exit`).
* `sort.Slice` is the library's insertion sort, which is what it runs on at
  most twelve rows; the theorems on the ranked output also cover every result
  that is a permutation sorted by the comparator.
* The table `configs.LanguageExtensions` and the library function
  `strings.ToLower` are parameters of the file filter.
-/

namespace Gitfame

/-- A Go string, as its sequence of code points. -/
abbrev Str := List Char

/-! ## Library functions of Go used by the source -/

/-- The predicate `unicode.IsSpace`. -/
def isSpace (c : Char) : Bool :=
  let n := c.toNat
  (9 ≤ n && n ≤ 13) || n = 32 || n = 0x85 || n = 0xA0 || n = 0x1680 ||
  (0x2000 ≤ n && n ≤ 0x200A) || n = 0x2028 || n = 0x2029 || n = 0x202F ||
  n = 0x205F || n = 0x3000

/-- The function `strings.Fields`: the maximal runs of non-space characters. -/
def fields : Str → List Str
  | [] => []
  | c :: cs =>
    if isSpace c then fields cs
    else
      match cs with
      | [] => [[c]]
      | d :: _ =>
        if isSpace d then [c] :: fields cs
        else
          match fields cs with
          | [] => [[c]]
          | w :: ws => (c :: w) :: ws

/-- The call `strings.Split(s, "\n")`. -/
def splitNL : Str → List Str
  | [] => [[]]
  | c :: cs =>
    if c = '\n' then [] :: splitNL cs
    else
      match splitNL cs with
      | [] => [[c]]
      | l :: ls => (c :: l) :: ls

/-- The call `strings.HasPrefix(line, "\t")`. -/
def hasTabPrefix : Str → Bool
  | [] => false
  | c :: _ => c = '\t'

/-- The second result of `strings.Cut(line, " ")`: the text after the first
space, or the empty string when the line has no space. -/
def cutAfterSpace : Str → Str
  | [] => []
  | c :: cs => if c = ' ' then cs else cutAfterSpace cs

/-- The first result of `strings.CutPrefix(s, p)`. -/
def cutPrefix (s p : Str) : Str :=
  if p.isPrefixOf s then s.drop p.length else s

/-- The first result of `strings.CutSuffix(s, p)`. -/
def cutSuffix (s p : Str) : Str :=
  if p.isSuffixOf s then s.take (s.length - p.length) else s

/-- An ASCII decimal digit. -/
def isDigit (c : Char) : Bool := 48 ≤ c.toNat && c.toNat ≤ 57

/-- The value of a run of decimal digits. -/
def digitsVal (ds : Str) : Nat :=
  ds.foldl (fun acc c => acc * 10 + (c.toNat - 48)) 0

/-- The bound `1 << 63` of the 64-bit `int`. -/
def intCutoff : Nat := 9223372036854775808

/-- The value of `strconv.Atoi` on an unsigned digit string and a sign. -/
def atoiDigits (neg : Bool) (ds : Str) : Int :=
  if ds = [] ∨ ds.all isDigit = false then 0
  else
    let v := digitsVal ds
    if neg then (if intCutoff < v then -(intCutoff : Int) else -(v : Int))
    else (if intCutoff ≤ v then (intCutoff : Int) - 1 else (v : Int))

/-- The first result of `strconv.Atoi`; the error is dropped at each call of
the source.  A syntax error gives 0, a value out of range the nearest bound. -/
def atoi : Str → Int
  | [] => 0
  | c :: cs =>
    if c = '-' then atoiDigits true cs
    else if c = '+' then atoiDigits false cs
    else atoiDigits false (c :: cs)

/-- The decimal digits of a natural number, most significant first, written in
front of `acc`; `fuel` bounds the number of digits. -/
def natDigitsAux : Nat → Nat → Str → Str
  | 0, _, acc => acc
  | fuel + 1, n, acc =>
    let acc1 := Char.ofNat (48 + n % 10) :: acc
    if n / 10 = 0 then acc1 else natDigitsAux fuel (n / 10) acc1

/-- The decimal numeral of a natural number. -/
def natDigits (n : Nat) : Str := natDigitsAux (n + 1) n []

/-- The function `strconv.Itoa`. -/
def itoa (x : Int) : Str :=
  if x < 0 then '-' :: natDigits x.natAbs else natDigits x.natAbs

/-- Go's `a < b` on strings. -/
def strLt : Str → Str → Bool
  | [], [] => false
  | [], _ :: _ => true
  | _ :: _, [] => false
  | a :: as, b :: bs =>
    if a.toNat < b.toNat then true
    else if b.toNat < a.toNat then false
    else strLt as bs

/-! ## Go maps -/

/-- The read `m[k]` with its presence flag. -/
def lookup {V : Type} : List (Str × V) → Str → Option V
  | [], _ => none
  | (k, v) :: m, key => if k = key then some v else lookup m key

/-- The write `m[k] = v`. -/
def insert {V : Type} : List (Str × V) → Str → V → List (Str × V)
  | [], key, val => [(key, val)]
  | (k, v) :: m, key, val =>
    if k = key then (k, val) :: m else (k, v) :: insert m key val

/-- The call `delete(m, k)`. -/
def delete {V : Type} (m : List (Str × V)) (key : Str) : List (Str × V) :=
  m.filter (fun kv => decide (kv.1 ≠ key))

/-! ## The ranking comparator -/

/-- The value `stats[a]`, read at its three keys. -/
structure Stat where
  lines : Int
  commits : Int
  files : Int
deriving DecidableEq, Repr

/-- The initial value of the slice `sortKeys` in `parseArgs`. -/
def baseSortKeys : List Str := ["lines".toList, "commits".toList, "files".toList]

/-- The map `sortIndex` of `parseArgs`. -/
def sortIndex (key : Str) : Nat :=
  if key = "lines".toList then 1
  else if key = "commits".toList then 2
  else if key = "files".toList then 3
  else 0

/-- The loop of `parseArgs` over `sortKeys`, at index `i` with `rest` still to
visit: the first key equal to `orderBy` is removed and put in front. -/
def parseArgsLoop (orderBy : Str) (keys : List Str) : Nat → List Str → Option (List Str)
  | _, [] => none
  | i, key :: rest =>
    if key = orderBy then some (key :: keys.eraseIdx i)
    else parseArgsLoop orderBy keys (i + 1) rest

/-- The slice `sortKeys` that `parseArgs` leaves for `--order-by orderBy`;
`none` when the process exits with a parse error. -/
def parseArgs (orderBy : Str) : Option (List Str) :=
  parseArgsLoop orderBy baseSortKeys 0 baseSortKeys

/-- One element of `output` in `gitfame`: the name and the three counters
printed by `strconv.Itoa`. -/
def mkRow (name : Str) (st : Stat) : List Str :=
  [name, itoa st.lines, itoa st.commits, itoa st.files]

/-- The cell `output[i][idx]`. -/
def cell (row : List Str) (idx : Nat) : Str := row.getD idx []

/-- The function passed to `sort.Slice` in `gitfame`. -/
def less (sortKeys : List Str) (ri rj : List Str) : Bool :=
  let iName := cell ri 0
  let jName := cell rj 0
  let i0 := atoi (cell ri (sortIndex (sortKeys.getD 0 [])))
  let j0 := atoi (cell rj (sortIndex (sortKeys.getD 0 [])))
  let i1 := atoi (cell ri (sortIndex (sortKeys.getD 1 [])))
  let j1 := atoi (cell rj (sortIndex (sortKeys.getD 1 [])))
  let i2 := atoi (cell ri (sortIndex (sortKeys.getD 2 [])))
  let j2 := atoi (cell rj (sortIndex (sortKeys.getD 2 [])))
  !(decide (i0 < j0) || (decide (i0 = j0) && decide (i1 < j1)) ||
    (decide (i0 = j0) && decide (i1 = j1) && decide (i2 < j2)) ||
    (decide (i0 = j0) && decide (i1 = j1) && decide (i2 = j2) && strLt jName iName))

/-! ## The aggregation tables and the blame parser -/

/-- The package-level tables `stats`, `commits` and `files`.  The inner maps of
`commits` and `files` only ever hold `true`: they are the lists of their keys. -/
structure Tables where
  stats : List (Str × Stat)
  commits : List (Str × List Str)
  files : List (Str × List Str)
deriving DecidableEq, Repr

/-- The tables as `gitfame` makes them before the first file. -/
def emptyTables : Tables := ⟨[], [], []⟩

/-- The value `stats[a]`, zero at each key when `a` has no entry. -/
def statOf (t : Tables) (a : Str) : Stat := (lookup t.stats a).getD ⟨0, 0, 0⟩

/-- The keys of `commits[a]`. -/
def commitsOf (t : Tables) (a : Str) : List Str := (lookup t.commits a).getD []

/-- The keys of `files[a]`. -/
def filesOf (t : Tables) (a : Str) : List Str := (lookup t.files a).getD []

/-- The statement `stats[a]["lines"] += n`, after the creation of `stats[a]`
when it is absent. -/
def addLines (t : Tables) (a : Str) (n : Int) : Tables :=
  { t with stats := insert t.stats a { statOf t a with lines := (statOf t a).lines + n } }

/-- The commit block of `processFile` and `processEmptyFile`: `commits[a]` is
created when absent, and a commit not yet in it is recorded and counted. -/
def addCommit (t : Tables) (a commitHash : Str) : Tables :=
  if commitHash ∈ commitsOf t a then
    { t with commits := insert t.commits a (commitsOf t a) }
  else
    { t with
      commits := insert t.commits a (commitsOf t a ++ [commitHash])
      stats := insert t.stats a { statOf t a with commits := (statOf t a).commits + 1 } }

/-- The file block of `processFile`: `files[a]` is created when absent, and a
path not yet in it is recorded and counted. -/
def addFile (t : Tables) (a filePath : Str) : Tables :=
  if filePath ∈ filesOf t a then
    { t with files := insert t.files a (filesOf t a) }
  else
    { t with
      files := insert t.files a (filesOf t a ++ [filePath])
      stats := insert t.stats a { statOf t a with files := (statOf t a).files + 1 } }

/-- The statement `stats[a]["files"]++` of `processEmptyFile`, after the
creation of `stats[a]` when it is absent. -/
def bumpFiles (t : Tables) (a : Str) : Tables :=
  { t with stats := insert t.stats a { statOf t a with files := (statOf t a).files + 1 } }

/-- The aggregation block of `processFile` (the body of
`if linesUntilHeader == 0`, before the header is read). -/
def aggregate (t : Tables) (commitAuthor commitHash filePath : Str) (successiveLines : Int) :
    Tables :=
  addFile (addCommit (addLines t commitAuthor successiveLines) commitAuthor commitHash)
    commitAuthor filePath

/-- One run of the aggregation block: the author, commit and line count it
credits, and `stored`, the value of `commitAuthors[commitHash]` at that point.
The parser keeps these in a log that the source does not have. -/
structure Credit where
  author : Str
  commit : Str
  lines : Int
  stored : Str
deriving DecidableEq, Repr

/-- The local variables of `processFile`, the tables, and the log of credits. -/
structure Parser where
  linesUntilHeader : Int
  commitAuthor : Str
  commitHash : Str
  successiveLines : Int
  commitAuthors : List (Str × Str)
  tables : Tables
  log : List Credit
deriving DecidableEq, Repr

/-- The locals of `processFile` before its loop. -/
def initParser (t : Tables) : Parser :=
  { linesUntilHeader := 0, commitAuthor := [], commitHash := [], successiveLines := 0,
    commitAuthors := [], tables := t, log := [] }

/-- The value `commitAuthors[h]`, the empty string when `h` has no entry. -/
def authorOf (m : List (Str × Str)) (h : Str) : Str := (lookup m h).getD []

/-- The credit that the aggregation block makes in the state `p`. -/
def creditOf (p : Parser) : Credit :=
  ⟨p.commitAuthor, p.commitHash, p.successiveLines, authorOf p.commitAuthors p.commitHash⟩

/-- The `switch words[0]` of `processFile`, run when the line is not empty;
`none` when `words` is empty and `words[0]` is out of range. -/
def metaStep (useCommitter : Bool) (line : Str) (words : List Str) (p : Parser) :
    Option Parser :=
  if line = [] then some p
  else
    match words with
    | [] => none
    | w :: _ =>
      if (w = "author".toList ∧ useCommitter = false) ∨
          (w = "committer".toList ∧ useCommitter = true) then
        some { p with
          commitAuthor := cutAfterSpace line
          commitAuthors := insert p.commitAuthors p.commitHash (cutAfterSpace line) }
      else some p

/-- The header block of `processFile` (the body of `if i != len(outSplit)-1`);
`none` when `words[0]` is out of range. -/
def headerStep (words : List Str) (p : Parser) : Option Parser :=
  match words with
  | [] => none
  | w :: _ =>
    let successive := if words.length = 4 then atoi (words.getD 3 []) else p.successiveLines
    some { p with
      commitHash := w
      commitAuthor := authorOf p.commitAuthors w
      successiveLines := successive
      linesUntilHeader := successive }

/-- The body of `if linesUntilHeader == 0`: the aggregation block, then the
header block unless the line is the last one. -/
def creditStep (filePath : Str) (isLast : Bool) (words : List Str) (p : Parser) :
    Option Parser :=
  if p.linesUntilHeader = 0 then
    let q := { p with
      tables := aggregate p.tables p.commitAuthor p.commitHash filePath p.successiveLines
      log := p.log ++ [creditOf p] }
    if isLast then some q else headerStep words q
  else some p

/-- The body of the loop of `processFile` for one line; `isLast` is
`i == len(outSplit)-1`. -/
def lineStep (useCommitter : Bool) (filePath : Str) (isLast : Bool) (line : Str)
    (p : Parser) : Option Parser :=
  if hasTabPrefix line then
    some { p with linesUntilHeader := p.linesUntilHeader - 1 }
  else
    match metaStep useCommitter line (fields line) p with
    | none => none
    | some q => creditStep filePath isLast (fields line) q

/-- The loop `for i, line := range outSplit` of `processFile`. -/
def blameLoop (useCommitter : Bool) (filePath : Str) : List Str → Parser → Option Parser
  | [], p => some p
  | line :: rest, p =>
    match lineStep useCommitter filePath rest.isEmpty line p with
    | none => none
    | some q => blameLoop useCommitter filePath rest q

/-- The function `processEmptyFile`; `logOut` is the output of `git log`, `none`
when the command fails.  The result is `none` when an index is out of range. -/
def processEmptyFile (logOut : Option Str) (t : Tables) : Option Tables :=
  match logOut with
  | none => some t
  | some out =>
    let outSplit := splitNL out
    match fields (outSplit.getD 0 []) with
    | _ :: commitHash :: _ =>
      match outSplit with
      | _ :: line1 :: _ =>
        if fields line1 = [] then none
        else
          let suffix := (fields line1).getLastD []
          let commitAuthor := cutSuffix (cutPrefix line1 "Author: ".toList) (' ' :: suffix)
          some (addCommit (bumpFiles t commitAuthor) commitAuthor commitHash)
      | _ => none
    | _ => none

/-- The function `processFile`; `blameOut` is the output of `git blame
--porcelain`, `logOut` that of the `git log` of `processEmptyFile`. -/
def processFile (useCommitter : Bool) (filePath : Str) (blameOut : Str) (logOut : Option Str)
    (t : Tables) : Option Tables :=
  if blameOut = [] then processEmptyFile logOut t
  else (blameLoop useCommitter filePath (splitNL blameOut) (initParser t)).map (·.tables)

/-- The rows of `output` in `gitfame` before sorting: `delete(stats, "")`, then
one row for each remaining entry. -/
def outputRows (t : Tables) : List (List Str) :=
  (delete t.stats []).map (fun kv => mkRow kv.1 kv.2)

/-- The loop of `processFile` on lines none of which is the last one. -/
def blameSteps (useCommitter : Bool) (filePath : Str) : List Str → Parser → Option Parser
  | [], p => some p
  | line :: rest, p =>
    match lineStep useCommitter filePath false line p with
    | none => none
    | some q => blameSteps useCommitter filePath rest q

/-- The tables that a run can hold at some point: the empty tables, and those
left by one more line of a blame report (in any state of the locals of
`processFile`) or by one more call of `processEmptyFile`. -/
inductive Reach : Tables → Prop where
  | init : Reach emptyTables
  | line (useCommitter : Bool) (filePath : Str) (isLast : Bool) (line : Str) (p q : Parser) :
      Reach p.tables → lineStep useCommitter filePath isLast line p = some q → Reach q.tables
  | emptyFile (logOut : Option Str) (t u : Tables) :
      Reach t → processEmptyFile logOut t = some u → Reach u

/-! ## Blame reports in the format of the parser -/

/-- A line that sets the identity of the current commit: its first word is
`author`, or `committer` under `--use-committer`. -/
def isIdentityLine (useCommitter : Bool) (line : Str) : Bool :=
  match fields line with
  | [] => false
  | w :: _ =>
    decide ((w = "author".toList ∧ useCommitter = false) ∨
      (w = "committer".toList ∧ useCommitter = true))

/-- The effect of the `switch words[0]` of `processFile` on a line that has a
first word. -/
def applyMeta (useCommitter : Bool) (line : Str) (p : Parser) : Parser :=
  if isIdentityLine useCommitter line then
    { p with
      commitAuthor := cutAfterSpace line
      commitAuthors := insert p.commitAuthors p.commitHash (cutAfterSpace line) }
  else p

/-- The effect of the aggregation block on the parser. -/
def credited (filePath : Str) (p : Parser) : Parser :=
  { p with
    tables := aggregate p.tables p.commitAuthor p.commitHash filePath p.successiveLines
    log := p.log ++ [creditOf p] }

/-- One hunk of a report: its header line, the metadata lines of its commit,
and its content lines. -/
structure Hunk where
  header : Str
  metadata : List Str
  content : List Str
deriving DecidableEq, Repr

/-- The lines of a hunk, in the order of the report. -/
def Hunk.lines (h : Hunk) : List Str := h.header :: (h.metadata ++ h.content)

/-- The commit identifier of a hunk: the first field of its header. -/
def Hunk.commit (h : Hunk) : Str := (fields h.header).headD []

/-- The format of a hunk: a header of four fields, the last of which reads as
the number of content lines; metadata lines that start with a keyword; content
lines that start with a tab; at least one content line; no newline inside a
line. -/
def Hunk.WellFormed (h : Hunk) : Prop :=
  hasTabPrefix h.header = false ∧
  (fields h.header).length = 4 ∧
  atoi ((fields h.header).getD 3 []) = (h.content.length : Int) ∧
  (∀ m ∈ h.metadata, hasTabPrefix m = false ∧ fields m ≠ []) ∧
  (∀ l ∈ h.content, hasTabPrefix l = true) ∧
  1 ≤ h.content.length ∧
  (∀ l ∈ h.lines, '\n' ∉ l)

instance (h : Hunk) : Decidable h.WellFormed := by
  unfold Hunk.WellFormed; infer_instance

/-- The parser after the lines of a well-formed hunk, when the header is read
with `linesUntilHeader == 0`: the previous hunk is credited, the header opens
the new hunk, the metadata lines set the identity, and the content lines bring
the countdown to zero. -/
def afterHunk (useCommitter : Bool) (filePath : Str) (h : Hunk) (p : Parser) : Parser :=
  let p1 := credited filePath (applyMeta useCommitter h.header p)
  let p2 : Parser := { p1 with
    commitHash := h.commit
    commitAuthor := authorOf p1.commitAuthors h.commit
    successiveLines := (h.content.length : Int)
    linesUntilHeader := (h.content.length : Int) }
  let p3 := h.metadata.foldl (fun q m => applyMeta useCommitter m q) p2
  { p3 with linesUntilHeader := 0 }

/-- The parser after the lines of the given well-formed hunks. -/
def afterHunks (useCommitter : Bool) (filePath : Str) (hs : List Hunk) (p : Parser) : Parser :=
  hs.foldl (fun q h => afterHunk useCommitter filePath h q) p

/-- The credits of the given hunks, one for each hunk in the order of the
report: the credit made in the state that the hunk leaves. -/
def hunkCredits (useCommitter : Bool) (filePath : Str) : List Hunk → Parser → List Credit
  | [], _ => []
  | h :: hs, p =>
    creditOf (afterHunk useCommitter filePath h p) ::
      hunkCredits useCommitter filePath hs (afterHunk useCommitter filePath h p)

/-- The sum of the line counts in a log of credits. -/
def creditedLines (log : List Credit) : Int := (log.map Credit.lines).sum

/-- The lines of a report made of the given hunks. -/
def reportLines : List Hunk → List Str
  | [] => []
  | h :: hs => h.lines ++ reportLines hs

/-- Text made of the given lines, each ended by a newline. -/
def unlines : List Str → Str
  | [] => []
  | l :: ls => l ++ '\n' :: unlines ls

/-- The text of a report made of the given hunks. -/
def reportText (hs : List Hunk) : Str := unlines (reportLines hs)

/-- The number of content lines of a report: those that start with a tab. -/
def contentLineCount (lines : List Str) : Nat := (lines.filter hasTabPrefix).length

/-- A word of `strings.Fields`: not empty and without white space. -/
def isToken (w : Str) : Prop := w ≠ [] ∧ ∀ c ∈ w, isSpace c = false

instance (w : Str) : Decidable (isToken w) := by
  unfold isToken; infer_instance

/-- The line count that the specification gives to a header without a count:
the count of the last line of `lines` that is a four-field header of the commit
`c`. -/
def specLastCount (c : Str) : List Str → Option Int
  | [] => none
  | l :: ls =>
    match specLastCount c ls with
    | some n => some n
    | none =>
      if (fields l).length = 4 ∧ (fields l).headD [] = c then some (atoi ((fields l).getD 3 []))
      else none

/-- A hunk whose metadata holds an `author` line and a `committer` line, in
the order in which `git blame --porcelain` prints them, among other lines. -/
structure IdHunk where
  header : Str
  before : List Str
  author : Str
  between : List Str
  committer : Str
  after : List Str
  content : List Str
deriving DecidableEq, Repr

/-- The hunk of the report that an `IdHunk` stands for. -/
def IdHunk.toHunk (h : IdHunk) : Hunk :=
  { header := h.header
    metadata := h.before ++ ("author ".toList ++ h.author) ::
      (h.between ++ ("committer ".toList ++ h.committer) :: h.after)
    content := h.content }

/-- The lines of an `IdHunk` other than its `author` and `committer` lines: the
header and the remaining metadata. -/
def IdHunk.otherLines (h : IdHunk) : List Str :=
  h.header :: (h.before ++ h.between ++ h.after)

/-- The credit expected for an `IdHunk`: to the committer under
`--use-committer`, to the author otherwise. -/
def IdHunk.expected (useCommitter : Bool) (h : IdHunk) : Str × Str × Int :=
  (if useCommitter then h.committer else h.author, h.toHunk.commit, (h.content.length : Int))

/-- The count of tab-prefixed lines read since the header block last ran, after
one more line read in the state `p`: a content line adds one, a line on which
the header block runs (not tab-prefixed, countdown at zero) resets the count. -/
def tabsAfter (line : Str) (p : Parser) (n : Nat) : Nat :=
  if hasTabPrefix line then n + 1 else if p.linesUntilHeader = 0 then 0 else n

/-- The loop of `processFile` on lines none of which is the last one, together
with a count that the source does not keep: the number of tab-prefixed lines
read since the header block last ran (since the start when it has not run). -/
def tabsSinceHeader (useCommitter : Bool) (filePath : Str) :
    List Str → Parser → Nat → Option (Parser × Nat)
  | [], p, n => some (p, n)
  | line :: rest, p, n =>
    match lineStep useCommitter filePath false line p with
    | none => none
    | some q => tabsSinceHeader useCommitter filePath rest q (tabsAfter line p n)

/-- The tables after the aggregation block has run once for each credit of a
log, in the order of the log, for the file `filePath`. -/
def replayCredits (filePath : Str) (t : Tables) (log : List Credit) : Tables :=
  log.foldl (fun u cr => aggregate u cr.author cr.commit filePath cr.lines) t

/-- No counter of any author is smaller in `u` than in `t`. -/
def StatsLe (t u : Tables) : Prop :=
  ∀ a, (statOf t a).lines ≤ (statOf u a).lines ∧ (statOf t a).commits ≤ (statOf u a).commits ∧
    (statOf t a).files ≤ (statOf u a).files

/-! ## The language and extension filter of `gitfame` -/

/-- One entry of the table `configs.LanguageExtensions`. -/
structure LanguagesExtensions where
  name : Str
  type : Str
  extensions : List Str
deriving DecidableEq, Repr

/-- Lower-casing of the ASCII letters of a text: the value of `strings.ToLower`
on ASCII text.  It is one function that the parameter `lower` of the filter can
be, for a table whose names are ASCII. -/
def toLowerASCII (s : Str) : Str := s.map Char.toLower

/-- The call `strings.HasSuffix(filePath, extension)`. -/
def hasSuffix (filePath extension : Str) : Bool := extension.isSuffixOf filePath

/-- The loops of `gitfame` over `mappings` and `*languages`: the extensions of
each entry whose lower-cased name is one of the languages are appended to
`*extensions`, which is made non-nil first.  `none` is the nil slice, and
`lower` is the library function `strings.ToLower`, a parameter. -/
def addLanguageExtensions (lower : Str → Str) (mappings : List LanguagesExtensions)
    (languages : List Str) (extensions : Option (List Str)) : Option (List Str) :=
  mappings.foldl
    (fun exts mapping =>
      languages.foldl
        (fun exts language =>
          if lower mapping.name = language then some (exts.getD [] ++ mapping.extensions)
          else exts)
        exts)
    extensions

/-- The loop of `gitfame` over `*extensions`: the value of `matchedOnce`. -/
def matchedOnce (extensions : List Str) (filePath : Str) : Bool :=
  extensions.foldl (fun matched extension => if hasSuffix filePath extension then true else matched)
    false

/-- The language and extension filter of `gitfame` for one file that passed
`--restrict-to` and `--exclude`, with the table `mappings` and the library
function `strings.ToLower` (`lower`) as parameters: the new value of
`*extensions`, and whether the file reaches `processFile`. -/
def fileFilter (lower : Str → Str) (mappings : List LanguagesExtensions)
    (languages extensions : Option (List Str)) (filePath : Str) : Option (List Str) × Bool :=
  let exts :=
    match languages with
    | none => extensions
    | some ls => addLanguageExtensions lower mappings ls extensions
  match exts with
  | none => (exts, true)
  | some es => (exts, matchedOnce es filePath)

/-! ## The order of the specification -/

/-- The three values of `--order-by`. -/
inductive OrderKey where
  | lines
  | commits
  | files
deriving DecidableEq, Repr

/-- The flag value of an order-by key. -/
def OrderKey.flag : OrderKey → Str
  | .lines => "lines".toList
  | .commits => "commits".toList
  | .files => "files".toList

/-- The counter of an author that an order-by key names. -/
def OrderKey.value : OrderKey → Stat → Int
  | .lines, st => st.lines
  | .commits, st => st.commits
  | .files, st => st.files

/-- The specification's tie-break keys: the fixed precedence lines, commits,
files with the primary key skipped. -/
def specTieBreak (k : OrderKey) : List OrderKey :=
  [OrderKey.lines, OrderKey.commits, OrderKey.files].filter (fun j => decide (j ≠ k))

/-- The specification's order along a list of keys: the larger value of the
first key comes first, a tie passes to the next key, and a tie of all keys
puts the lexicographically smaller name first. -/
def specBeforeOn : List OrderKey → Str × Stat → Str × Stat → Bool
  | [], a, b => strLt a.1 b.1
  | k :: ks, a, b =>
    decide (k.value b.2 < k.value a.2) ||
      (decide (k.value a.2 = k.value b.2) && specBeforeOn ks a b)

/-- The specification's ranking order for the primary key `k`. -/
def specBefore (k : OrderKey) (a b : Str × Stat) : Bool :=
  specBeforeOn (k :: specTieBreak k) a b

/-- The range of a Go `int`. -/
def inIntRange (x : Int) : Prop := -(intCutoff : Int) ≤ x ∧ x < (intCutoff : Int)

/-- A `Stat` whose counters are Go `int` values. -/
def Stat.inRange (st : Stat) : Prop :=
  inIntRange st.lines ∧ inIntRange st.commits ∧ inIntRange st.files

/-! ## The call of `sort.Slice` -/

/-- The inner loop of the library's insertion sort (`for j := i; j > a &&
less(j, j-1); j--` with its swap), on the sorted part of the slice given last
element first: the new element moves towards the front while `less` puts it
before its neighbour. -/
def insertBack {α : Type} (less : α → α → Bool) (x : α) : List α → List α
  | [] => [x]
  | y :: ys => if less x y then y :: insertBack less x ys else x :: y :: ys

/-- The outer loop of the library's insertion sort; `acc` is the sorted part of
the slice, last element first. -/
def insertionLoop {α : Type} (less : α → α → Bool) : List α → List α → List α
  | acc, [] => acc
  | acc, x :: xs => insertionLoop less (insertBack less x acc) xs

/-- The call `sort.Slice(output, less)` as the library runs it on a slice of at
most twelve elements: insertion sort.  On a longer slice the library runs
further phases whose result obeys `IsSortOf`. -/
def sortSlice {α : Type} (less : α → α → Bool) (l : List α) : List α :=
  (insertionLoop less [] l).reverse

/-- The result that the library promises for `sort.Slice`: the same elements,
none of them `less` than an element placed before it. -/
def IsSortOf {α : Type} (less : α → α → Bool) (input out : List α) : Prop :=
  out.Perm input ∧ out.Pairwise (fun a b => less b a = false)

/-- The names of the rows of `output`. -/
def rowNames (rows : List (List Str)) : List Str := rows.map (fun r => cell r 0)

/-! ## Numerals: `strconv.Atoi` after `strconv.Itoa` -/

theorem toNat_inj {a b : Char} (h : a.toNat = b.toNat) : a = b := by
  have := congrArg Char.ofNat h
  simpa [Char.ofNat_toNat] using this

theorem digit_toNat (k : Nat) (h : k < 10) : (Char.ofNat (48 + k)).toNat = 48 + k := by
  interval_cases k <;> rfl

theorem foldl_digits (l : Str) (a : Nat) :
    l.foldl (fun acc c => acc * 10 + (c.toNat - 48)) a = a * 10 ^ l.length + digitsVal l := by
  induction l generalizing a with
  | nil => simp [digitsVal]
  | cons c cs ih =>
    simp only [List.foldl_cons, digitsVal, List.length_cons]
    rw [ih, ih (0 * 10 + (c.toNat - 48))]
    simp only [digitsVal]
    ring


theorem digit_isDigit (k : Nat) (h : k < 10) : isDigit (Char.ofNat (48 + k)) = true := by
  interval_cases k <;> rfl

theorem natDigitsAux_all (fuel n : Nat) (acc : Str) (h : acc.all isDigit = true) :
    (natDigitsAux fuel n acc).all isDigit = true := by
  induction fuel generalizing n acc with
  | zero => simpa [natDigitsAux] using h
  | succ f ih =>
    have hd : isDigit (Char.ofNat (48 + n % 10)) = true :=
      digit_isDigit _ (Nat.mod_lt _ (by decide))
    have hacc : (Char.ofNat (48 + n % 10) :: acc).all isDigit = true := by
      simp only [List.all_cons, hd, h, Bool.and_self]
    simp only [natDigitsAux]
    split
    · exact hacc
    · exact ih _ _ hacc

theorem natDigitsAux_ne_nil (fuel n : Nat) (acc : Str) :
    natDigitsAux (fuel + 1) n acc ≠ [] := by
  induction fuel generalizing n acc with
  | zero => simp [natDigitsAux]
  | succ f ih =>
    rw [natDigitsAux]
    split
    · simp
    · exact ih _ _

theorem natDigitsAux_val (fuel n : Nat) (acc : Str) (h : n < fuel) :
    digitsVal (natDigitsAux fuel n acc) = n * 10 ^ acc.length + digitsVal acc := by
  induction fuel generalizing n acc with
  | zero => omega
  | succ f ih =>
    have hk : (Char.ofNat (48 + n % 10)).toNat - 48 = n % 10 := by
      rw [digit_toNat _ (Nat.mod_lt _ (by decide))]; omega
    have hcons : digitsVal (Char.ofNat (48 + n % 10) :: acc)
        = (n % 10) * 10 ^ acc.length + digitsVal acc := by
      simp only [digitsVal, List.foldl_cons]
      rw [foldl_digits, hk]
      simp [digitsVal]
    simp only [natDigitsAux]
    split
    · rename_i h0
      rw [hcons]
      have : n % 10 = n := by omega
      rw [this]
    · rename_i h0
      rw [ih _ _ (by omega), hcons, List.length_cons, pow_succ]
      have hn : n = 10 * (n / 10) + n % 10 := (Nat.div_add_mod n 10).symm
      generalize n / 10 = q at hn ⊢
      generalize n % 10 = r at hn ⊢
      subst hn
      ring

theorem natDigits_val (n : Nat) : digitsVal (natDigits n) = n := by
  rw [natDigits, natDigitsAux_val _ _ _ (Nat.lt_succ_self n)]
  simp [digitsVal]

theorem natDigits_all (n : Nat) : (natDigits n).all isDigit = true :=
  natDigitsAux_all _ _ _ rfl

theorem natDigits_ne_nil (n : Nat) : natDigits n ≠ [] :=
  natDigitsAux_ne_nil _ _ _

theorem atoiDigits_natDigits (n : Nat) (h : n < intCutoff) :
    atoiDigits false (natDigits n) = n := by
  simp [atoiDigits, natDigits_ne_nil, natDigits_all, natDigits_val, Nat.not_le.mpr h]

theorem atoiDigits_neg_natDigits (n : Nat) (h : n ≤ intCutoff) :
    atoiDigits true (natDigits n) = -(n : Int) := by
  simp [atoiDigits, natDigits_ne_nil, natDigits_all, natDigits_val, Nat.not_lt.mpr h]

theorem atoi_of_digits (s : Str) (hne : s ≠ []) (hall : s.all isDigit = true) :
    atoi s = atoiDigits false s := by
  cases s with
  | nil => exact absurd rfl hne
  | cons c cs =>
    have hc : isDigit c = true := by
      simp only [List.all_cons, Bool.and_eq_true] at hall
      exact hall.1
    have h1 : c ≠ '-' := by rintro rfl; exact absurd hc (by decide)
    have h2 : c ≠ '+' := by rintro rfl; exact absurd hc (by decide)
    simp [atoi, h1, h2]

theorem atoi_natDigits (n : Nat) (h : n < intCutoff) : atoi (natDigits n) = n := by
  rw [atoi_of_digits _ (natDigits_ne_nil n) (natDigits_all n), atoiDigits_natDigits n h]

theorem atoi_itoa (x : Int) (h : inIntRange x) : atoi (itoa x) = x := by
  obtain ⟨hlo, hhi⟩ := h
  unfold itoa
  split
  · rename_i hneg
    have : x.natAbs ≤ intCutoff := by omega
    simp only [atoi, if_true]
    rw [atoiDigits_neg_natDigits _ this]
    omega
  · rename_i hpos
    have : x.natAbs < intCutoff := by omega
    rw [atoi_natDigits _ this]
    omega

/-! ## The comparator of `gitfame` -/

theorem strLt_irrefl (a : Str) : strLt a a = false := by
  induction a with
  | nil => rfl
  | cons c cs ih => simp [strLt, ih]

theorem strLt_total {a b : Str} (h : a ≠ b) : strLt a b = true ∨ strLt b a = true := by
  induction a generalizing b with
  | nil =>
    cases b with
    | nil => exact absurd rfl h
    | cons d ds => left; rfl
  | cons c cs ih =>
    cases b with
    | nil => right; rfl
    | cons d ds =>
      rcases Nat.lt_trichotomy c.toNat d.toNat with hlt | heq | hgt
      · left; simp [strLt, hlt]
      · have hcd : c = d := toNat_inj heq
        subst hcd
        have hne : cs ≠ ds := fun e => h (by rw [e])
        rcases ih hne with h1 | h1
        · left; simp [strLt, h1]
        · right; simp [strLt, h1]
      · right; simp [strLt, hgt]

theorem strLt_asymm {a b : Str} (h : strLt a b = true) : strLt b a = false := by
  induction a generalizing b with
  | nil =>
    cases b with
    | nil => rfl
    | cons d ds => rfl
  | cons c cs ih =>
    cases b with
    | nil => simp [strLt] at h
    | cons d ds =>
      rcases Nat.lt_trichotomy c.toNat d.toNat with hlt | heq | hgt
      · simp [strLt, hlt, Nat.lt_asymm hlt]
      · have hcd : c = d := toNat_inj heq
        subst hcd
        simp only [strLt, Nat.lt_irrefl, if_false] at h ⊢
        exact ih h
      · simp [strLt, hgt, Nat.lt_asymm hgt] at h

theorem strLt_trans {a b c : Str} (hab : strLt a b = true) (hbc : strLt b c = true) :
    strLt a c = true := by
  induction a generalizing b c with
  | nil =>
    cases c with
    | nil =>
      cases b with
      | nil => simp [strLt] at hab
      | cons d ds => simp [strLt] at hbc
    | cons e es => rfl
  | cons x xs ih =>
    cases b with
    | nil => simp [strLt] at hab
    | cons y ys =>
      cases c with
      | nil => simp [strLt] at hbc
      | cons z zs =>
        simp only [strLt] at hab hbc ⊢
        by_cases hxy : x.toNat < y.toNat
        · by_cases hyz : y.toNat < z.toNat
          · simp [Nat.lt_trans hxy hyz]
          · by_cases hzy : z.toNat < y.toNat
            · simp [hyz, hzy] at hbc
            · have : y.toNat = z.toNat := by omega
              simp [← this, hxy]
        · by_cases hyx : y.toNat < x.toNat
          · simp [hxy, hyx] at hab
          · have hxy2 : x.toNat = y.toNat := by omega
            simp only [hxy, hyx, if_false] at hab
            by_cases hyz : y.toNat < z.toNat
            · simp [hxy2, hyz]
            · by_cases hzy : z.toNat < y.toNat
              · simp [hyz, hzy] at hbc
              · simp only [hyz, hzy, if_false] at hbc
                have hyz2 : y.toNat = z.toNat := by omega
                have h1 : ¬ x.toNat < z.toNat := by omega
                have h2 : ¬ z.toNat < x.toNat := by omega
                simp only [h1, h2, if_false]
                exact ih hab hbc

/-- The comparator of `gitfame` on six counters and two names. -/
theorem less_core (a0 b0 a1 b1 a2 b2 : Int) (an bn : Str) (hne : an ≠ bn) :
    (!(decide (a0 < b0) || (decide (a0 = b0) && decide (a1 < b1)) ||
      (decide (a0 = b0) && decide (a1 = b1) && decide (a2 < b2)) ||
      (decide (a0 = b0) && decide (a1 = b1) && decide (a2 = b2) && strLt bn an)))
    = (decide (b0 < a0) || (decide (a0 = b0) && (decide (b1 < a1) ||
        (decide (a1 = b1) && (decide (b2 < a2) || (decide (a2 = b2) && strLt an bn)))))) := by
  have hn : strLt bn an = !strLt an bn := by
    rcases strLt_total hne with h | h
    · simp [h, strLt_asymm h]
    · simp [h, strLt_asymm h]
  rw [hn]
  rcases lt_trichotomy a0 b0 with h0 | h0 | h0
  · simp [h0, h0.ne, h0.le, not_lt.mpr h0.le]
  · subst h0
    rcases lt_trichotomy a1 b1 with h1 | h1 | h1
    · simp [h1, h1.ne, not_lt.mpr h1.le]
    · subst h1
      rcases lt_trichotomy a2 b2 with h2 | h2 | h2
      · simp [h2, h2.ne, not_lt.mpr h2.le]
      · subst h2
        simp
      · simp [h2, h2.ne', not_lt.mpr h2.le]
    · simp [h1, h1.ne', not_lt.mpr h1.le]
  · simp [h0, h0.ne', not_lt.mpr h0.le]

theorem parseArgs_flag (k : OrderKey) :
    parseArgs k.flag = some (k.flag :: (specTieBreak k).map OrderKey.flag) := by
  cases k <;> decide

theorem sortIndex_cell (k : OrderKey) (name : Str) (st : Stat) (h : st.inRange) :
    atoi (cell (mkRow name st) (sortIndex k.flag)) = k.value st := by
  obtain ⟨h1, h2, h3⟩ := h
  cases k
  · show atoi (itoa st.lines) = st.lines
    exact atoi_itoa _ h1
  · show atoi (itoa st.commits) = st.commits
    exact atoi_itoa _ h2
  · show atoi (itoa st.files) = st.files
    exact atoi_itoa _ h3

/-- C1: for every order-by key `k` and two author rows with different names
(counters in the range of `int`), `parseArgs` builds `sortKeys` and the
comparator of `gitfame` reports the first row before the second exactly when it
precedes it in the order of the specification: larger value of `k` first, then
larger values of the remaining keys in the precedence lines, commits, files,
then the lexicographically smaller name. -/
theorem less_iff_specBefore (k : OrderKey) (a b : Str × Stat) (hne : a.1 ≠ b.1)
    (ha : a.2.inRange) (hb : b.2.inRange) :
    ∃ sortKeys, parseArgs k.flag = some sortKeys ∧
      less sortKeys (mkRow a.1 a.2) (mkRow b.1 b.2) = specBefore k a b := by
  refine ⟨_, parseArgs_flag k, ?_⟩
  cases k <;>
  · simp only [less, specTieBreak, List.filter, List.map, List.getD_cons_zero,
      List.getD_cons_succ, specBefore, specBeforeOn, decide_not, decide_True, decide_False,
      Bool.not_true, Bool.not_false]
    simp only [sortIndex_cell _ _ _ ha, sortIndex_cell _ _ _ hb]
    exact less_core _ _ _ _ _ _ _ _ hne

theorem less_exclusive (sk : List Str) (a b : List Str) (hne : cell a 0 ≠ cell b 0) :
    less sk a b = !less sk b a := by
  have hba : cell b 0 ≠ cell a 0 := fun e => hne e.symm
  simp only [less]
  rw [less_core _ _ _ _ _ _ _ _ hne, less_core _ _ _ _ _ _ _ _ hba]
  generalize atoi (cell a (sortIndex (sk.getD 0 []))) = a0
  generalize atoi (cell b (sortIndex (sk.getD 0 []))) = b0
  generalize atoi (cell a (sortIndex (sk.getD 1 []))) = a1
  generalize atoi (cell b (sortIndex (sk.getD 1 []))) = b1
  generalize atoi (cell a (sortIndex (sk.getD 2 []))) = a2
  generalize atoi (cell b (sortIndex (sk.getD 2 []))) = b2
  have hn : strLt (cell b 0) (cell a 0) = !strLt (cell a 0) (cell b 0) := by
    rcases strLt_total hne with h | h
    · simp [h, strLt_asymm h]
    · simp [h, strLt_asymm h]
  rw [hn]
  rcases lt_trichotomy a0 b0 with h0 | h0 | h0
  · simp [h0, h0.ne, h0.ne', not_lt.mpr h0.le]
  · subst h0
    rcases lt_trichotomy a1 b1 with h1 | h1 | h1
    · simp [h1, h1.ne, h1.ne', not_lt.mpr h1.le]
    · subst h1
      rcases lt_trichotomy a2 b2 with h2 | h2 | h2
      · simp [h2, h2.ne, h2.ne', not_lt.mpr h2.le]
      · subst h2
        simp
      · simp [h2, h2.ne, h2.ne', not_lt.mpr h2.le]
    · simp [h1, h1.ne, h1.ne', not_lt.mpr h1.le]
  · simp [h0, h0.ne, h0.ne', not_lt.mpr h0.le]

theorem less_trans (sk : List Str) (a b c : List Str) (hab : cell a 0 ≠ cell b 0)
    (hbc : cell b 0 ≠ cell c 0) (hac : cell a 0 ≠ cell c 0)
    (h1 : less sk a b = true) (h2 : less sk b c = true) : less sk a c = true := by
  simp only [less] at h1 h2 ⊢
  rw [less_core _ _ _ _ _ _ _ _ hab] at h1
  rw [less_core _ _ _ _ _ _ _ _ hbc] at h2
  rw [less_core _ _ _ _ _ _ _ _ hac]
  generalize atoi (cell a (sortIndex (sk.getD 0 []))) = a0 at *
  generalize atoi (cell b (sortIndex (sk.getD 0 []))) = b0 at *
  generalize atoi (cell c (sortIndex (sk.getD 0 []))) = c0 at *
  generalize atoi (cell a (sortIndex (sk.getD 1 []))) = a1 at *
  generalize atoi (cell b (sortIndex (sk.getD 1 []))) = b1 at *
  generalize atoi (cell c (sortIndex (sk.getD 1 []))) = c1 at *
  generalize atoi (cell a (sortIndex (sk.getD 2 []))) = a2 at *
  generalize atoi (cell b (sortIndex (sk.getD 2 []))) = b2 at *
  generalize atoi (cell c (sortIndex (sk.getD 2 []))) = c2 at *
  simp only [Bool.or_eq_true, Bool.and_eq_true, decide_eq_true_eq] at h1 h2 ⊢
  rcases h1 with h | ⟨h, h' | ⟨h', h'' | ⟨h'', hs⟩⟩⟩ <;>
  rcases h2 with g | ⟨g, g' | ⟨g', g'' | ⟨g'', gs⟩⟩⟩ <;>
  first
  | exact Or.inl (by omega)
  | exact Or.inr ⟨by omega, Or.inl (by omega)⟩
  | exact Or.inr ⟨by omega, Or.inr ⟨by omega, Or.inl (by omega)⟩⟩
  | exact Or.inr ⟨by omega, Or.inr ⟨by omega, Or.inr ⟨by omega, strLt_trans hs gs⟩⟩⟩

/-- C10: for every order-by key and any three rows with pairwise different
names, the comparator reports at least one and not both of "a before b" and
"b before a", and it is transitive. -/
theorem less_total_order (k : OrderKey) (a b c : List Str) (hab : cell a 0 ≠ cell b 0)
    (hbc : cell b 0 ≠ cell c 0) (hac : cell a 0 ≠ cell c 0) :
    ∃ sortKeys, parseArgs k.flag = some sortKeys ∧
      (less sortKeys a b = true ∨ less sortKeys b a = true) ∧
      ¬ (less sortKeys a b = true ∧ less sortKeys b a = true) ∧
      (less sortKeys a b = true → less sortKeys b c = true → less sortKeys a c = true) := by
  refine ⟨_, parseArgs_flag k, ?_⟩
  have hx := less_exclusive (k.flag :: (specTieBreak k).map OrderKey.flag) a b hab
  refine ⟨?_, ?_, less_trans _ a b c hab hbc hac⟩
  · cases hba : less (k.flag :: (specTieBreak k).map OrderKey.flag) b a
    · left; rw [hx, hba]; rfl
    · right; rfl
  · rintro ⟨h1, h2⟩
    rw [hx, h2] at h1
    exact absurd h1 (by decide)

/-! ## Reads and writes of Go maps -/

theorem lookup_insert {V : Type} (m : List (Str × V)) (k : Str) (v : V) (key : Str) :
    lookup (insert m k v) key = if k = key then some v else lookup m key := by
  induction m with
  | nil => simp [insert, lookup]
  | cons e m ih =>
    obtain ⟨k0, v0⟩ := e
    by_cases h0 : k0 = k
    · subst h0
      by_cases h1 : k0 = key <;> simp [insert, lookup, h1]
    · by_cases h1 : k0 = key
      · subst h1
        have : ¬ k = k0 := fun e => h0 e.symm
        simp [insert, lookup, h0, this]
      · simp [insert, lookup, h0, h1, ih]

theorem statOf_insert (t : Tables) (a : Str) (st : Stat) (b : Str) :
    statOf { t with stats := insert t.stats a st } b = if a = b then st else statOf t b := by
  unfold statOf
  simp only [lookup_insert]
  split <;> rfl

/-! ## The aggregation block -/

theorem statOf_addLines (t : Tables) (a : Str) (n : Int) (b : Str) :
    statOf (addLines t a n) b
      = if a = b then { statOf t a with lines := (statOf t a).lines + n } else statOf t b := by
  unfold addLines
  exact statOf_insert _ _ _ _

theorem commitsOf_addLines (t : Tables) (a : Str) (n : Int) (b : Str) :
    commitsOf (addLines t a n) b = commitsOf t b := rfl

theorem filesOf_addLines (t : Tables) (a : Str) (n : Int) (b : Str) :
    filesOf (addLines t a n) b = filesOf t b := rfl

theorem statOf_bumpFiles (t : Tables) (a b : Str) :
    statOf (bumpFiles t a) b
      = if a = b then { statOf t a with files := (statOf t a).files + 1 } else statOf t b := by
  unfold bumpFiles
  exact statOf_insert _ _ _ _

theorem commitsOf_bumpFiles (t : Tables) (a b : Str) :
    commitsOf (bumpFiles t a) b = commitsOf t b := rfl

theorem filesOf_bumpFiles (t : Tables) (a b : Str) :
    filesOf (bumpFiles t a) b = filesOf t b := rfl

theorem commitsOf_addCommit (t : Tables) (a c b : Str) :
    commitsOf (addCommit t a c) b
      = if a = b then (if c ∈ commitsOf t a then commitsOf t a else commitsOf t a ++ [c])
        else commitsOf t b := by
  unfold addCommit
  split <;> by_cases hab : a = b <;> simp [hab, commitsOf, lookup_insert]

theorem statOf_addCommit (t : Tables) (a c b : Str) :
    statOf (addCommit t a c) b
      = if a = b ∧ c ∉ commitsOf t a then { statOf t a with commits := (statOf t a).commits + 1 }
        else statOf t b := by
  unfold addCommit
  by_cases hc : c ∈ commitsOf t a
  · simp only [hc, if_true, not_true_eq_false, and_false, if_false]
    rfl
  · simp only [hc, if_false, not_false_eq_true, and_true]
    exact statOf_insert _ _ _ _

theorem filesOf_addCommit (t : Tables) (a c b : Str) :
    filesOf (addCommit t a c) b = filesOf t b := by
  unfold addCommit
  split <;> rfl

theorem filesOf_addFile (t : Tables) (a f b : Str) :
    filesOf (addFile t a f) b
      = if a = b then (if f ∈ filesOf t a then filesOf t a else filesOf t a ++ [f])
        else filesOf t b := by
  unfold addFile
  split <;> by_cases hab : a = b <;> simp [hab, filesOf, lookup_insert]

theorem statOf_addFile (t : Tables) (a f b : Str) :
    statOf (addFile t a f) b
      = if a = b ∧ f ∉ filesOf t a then { statOf t a with files := (statOf t a).files + 1 }
        else statOf t b := by
  unfold addFile
  by_cases hc : f ∈ filesOf t a
  · simp only [hc, if_true, not_true_eq_false, and_false, if_false]
    rfl
  · simp only [hc, if_false, not_false_eq_true, and_true]
    exact statOf_insert _ _ _ _

theorem commitsOf_addFile (t : Tables) (a f b : Str) :
    commitsOf (addFile t a f) b = commitsOf t b := by
  unfold addFile
  split <;> rfl

/-- C5: running the aggregation block of `processFile` twice with the same
author, commit, file and line count leaves the author's commit counter and file
counter as they are after one run, and the lines counter is larger by the line
count than after one run. -/
theorem aggregate_twice (t : Tables) (author commit file : Str) (n : Int) :
    (statOf (aggregate (aggregate t author commit file n) author commit file n) author).commits
      = (statOf (aggregate t author commit file n) author).commits ∧
    (statOf (aggregate (aggregate t author commit file n) author commit file n) author).files
      = (statOf (aggregate t author commit file n) author).files ∧
    (statOf (aggregate (aggregate t author commit file n) author commit file n) author).lines
      = (statOf (aggregate t author commit file n) author).lines + n := by
  have hc : commit ∈ commitsOf (aggregate t author commit file n) author := by
    simp only [aggregate, commitsOf_addFile, commitsOf_addCommit, if_true]
    split
    · assumption
    · simp
  have hf : file ∈ filesOf (aggregate t author commit file n) author := by
    simp only [aggregate, filesOf_addFile, if_true]
    split
    · assumption
    · simp
  generalize aggregate t author commit file n = u at hc hf
  have hf2 : file ∈ filesOf (addCommit (addLines u author n) author commit) author := by
    rw [filesOf_addCommit, filesOf_addLines]; exact hf
  have hc2 : commit ∈ commitsOf (addLines u author n) author := by
    rw [commitsOf_addLines]; exact hc
  simp only [aggregate, statOf_addFile, statOf_addCommit, statOf_addLines, hf2, hc2,
    not_true_eq_false, and_false, if_false, if_true, and_self]

/-! ## The commit counter and the commit set -/

/-- The invariant of the commit tables: each author's commit list has no
repetition and the commit counter is its length. -/
theorem commitInv_addCommit (t : Tables) (a c : Str)
    (h : ∀ b, (commitsOf t b).Nodup ∧ (statOf t b).commits = ((commitsOf t b).length : Int)) :
    ∀ b, (commitsOf (addCommit t a c) b).Nodup ∧
      (statOf (addCommit t a c) b).commits = ((commitsOf (addCommit t a c) b).length : Int) := by
  intro b
  rw [commitsOf_addCommit, statOf_addCommit]
  by_cases hab : a = b
  · subst hab
    by_cases hc : c ∈ commitsOf t a
    · simpa [hc] using h a
    · simp only [hc, if_true, if_false, not_false_eq_true, and_self]
      refine ⟨?_, ?_⟩
      · refine List.Nodup.append (h a).1 (List.nodup_singleton c) ?_
        intro x hx hx2
        rw [List.mem_singleton] at hx2
        exact hc (hx2 ▸ hx)
      · simp [(h a).2]
  · simpa [hab] using h b

theorem commitInv_aggregate (t : Tables) (a c f : Str) (n : Int)
    (h : ∀ b, (commitsOf t b).Nodup ∧ (statOf t b).commits = ((commitsOf t b).length : Int)) :
    ∀ b, (commitsOf (aggregate t a c f n) b).Nodup ∧
      (statOf (aggregate t a c f n) b).commits
        = ((commitsOf (aggregate t a c f n) b).length : Int) := by
  have h1 : ∀ b, (commitsOf (addLines t a n) b).Nodup ∧
      (statOf (addLines t a n) b).commits = ((commitsOf (addLines t a n) b).length : Int) := by
    intro b
    rw [commitsOf_addLines, statOf_addLines]
    by_cases hab : a = b
    · subst hab; simpa using h a
    · simpa [hab] using h b
  have h2 := commitInv_addCommit (addLines t a n) a c h1
  intro b
  unfold aggregate
  rw [commitsOf_addFile, statOf_addFile]
  by_cases hab : a = b
  · subst hab
    by_cases hf : f ∈ filesOf (addCommit (addLines t a n) a c) a
    · simpa [hf] using h2 a
    · simpa [hf] using h2 a
  · simpa [hab] using h2 b

theorem commitInv_bumpFiles (t : Tables) (a : Str)
    (h : ∀ b, (commitsOf t b).Nodup ∧ (statOf t b).commits = ((commitsOf t b).length : Int)) :
    ∀ b, (commitsOf (bumpFiles t a) b).Nodup ∧
      (statOf (bumpFiles t a) b).commits = ((commitsOf (bumpFiles t a) b).length : Int) := by
  intro b
  rw [commitsOf_bumpFiles, statOf_bumpFiles]
  by_cases hab : a = b
  · subst hab; simpa using h a
  · simpa [hab] using h b

/-- One line of a report leaves the tables as they are or runs the aggregation
block once. -/
theorem lineStep_tables (uc : Bool) (fp : Str) (isLast : Bool) (line : Str) (p q : Parser)
    (h : lineStep uc fp isLast line p = some q) :
    q.tables = p.tables ∨ ∃ a c n, q.tables = aggregate p.tables a c fp n := by
  unfold lineStep at h
  split at h
  · simp only [Option.some.injEq] at h
    subst h
    left; rfl
  · split at h
    · exact absurd h (by simp)
    · rename_i m hm
      have hmt : m.tables = p.tables := by
        unfold metaStep at hm
        split at hm
        · simp only [Option.some.injEq] at hm; subst hm; rfl
        · split at hm
          · exact absurd hm (by simp)
          · split at hm <;> simp only [Option.some.injEq] at hm <;> subst hm <;> rfl
      unfold creditStep at h
      split at h
      · right
        refine ⟨m.commitAuthor, m.commitHash, m.successiveLines, ?_⟩
        rw [← hmt]
        split at h
        · simp only [Option.some.injEq] at h; subst h; rfl
        · unfold headerStep at h
          split at h
          · exact absurd h (by simp)
          · simp only [Option.some.injEq] at h; subst h; rfl
      · left
        simp only [Option.some.injEq] at h
        subst h
        exact hmt

/-- A call of `processEmptyFile` that returns leaves the tables as they are or
counts one file and one commit for one author. -/
theorem processEmptyFile_tables (logOut : Option Str) (t u : Tables)
    (h : processEmptyFile logOut t = some u) :
    u = t ∨ ∃ a c, u = addCommit (bumpFiles t a) a c := by
  unfold processEmptyFile at h
  split at h
  · left; simpa using h.symm
  · simp only at h
    split at h
    · split at h
      · split at h
        · exact absurd h (by simp)
        · right
          simp only [Option.some.injEq] at h
          exact ⟨_, _, h.symm⟩
      · exact absurd h (by simp)
    · exact absurd h (by simp)

theorem commitInv_reach (t : Tables) (h : Reach t) :
    ∀ b, (commitsOf t b).Nodup ∧ (statOf t b).commits = ((commitsOf t b).length : Int) := by
  induction h with
  | init => intro b; exact ⟨List.nodup_nil, rfl⟩
  | line uc fp isLast line p q _ hstep ih =>
    rcases lineStep_tables uc fp isLast line p q hstep with e | ⟨a, c, n, e⟩
    · rw [e]; exact ih
    · rw [e]; exact commitInv_aggregate _ _ _ _ _ ih
  | emptyFile logOut t u _ hstep ih =>
    rcases processEmptyFile_tables logOut t u hstep with e | ⟨a, c, e⟩
    · rw [e]; exact ih
    · rw [e]; exact commitInv_addCommit _ _ _ (commitInv_bumpFiles _ _ ih)

/-- C6: at every point of a run (after any sequence of lines of blame
reports and of calls of `processEmptyFile`, from the empty tables) the commit
counter of each author is the number of distinct commit identifiers in that
author's commit set. -/
theorem commit_counter_eq_card (t : Tables) (h : Reach t) (a : Str) :
    (statOf t a).commits = ((commitsOf t a).toFinset.card : Int) := by
  obtain ⟨hnd, hlen⟩ := commitInv_reach t h a
  rw [hlen, List.toFinset_card_of_nodup hnd]

/-- The tables at the end of the loop of `processFile` are tables of a run. -/
theorem blameLoop_reach (uc : Bool) (fp : Str) (lines : List Str) (p q : Parser)
    (hp : Reach p.tables) (h : blameLoop uc fp lines p = some q) : Reach q.tables := by
  induction lines generalizing p with
  | nil =>
    simp only [blameLoop, Option.some.injEq] at h
    subst h
    exact hp
  | cons l ls ih =>
    simp only [blameLoop] at h
    split at h
    · exact absurd h (by simp)
    · rename_i m hm
      exact ih m (Reach.line uc fp _ l p m hp hm) h

/-- The tables that `processFile` returns are tables of a run. -/
theorem processFile_reach (uc : Bool) (fp blameOut : Str) (logOut : Option Str) (t u : Tables)
    (ht : Reach t) (h : processFile uc fp blameOut logOut t = some u) : Reach u := by
  unfold processFile at h
  split at h
  · exact Reach.emptyFile logOut t u ht h
  · cases hq : blameLoop uc fp (splitNL blameOut) (initParser t) with
    | none => rw [hq] at h; exact absurd h (by simp)
    | some q =>
      rw [hq] at h
      simp only [Option.map_some', Option.some.injEq] at h
      subst h
      exact blameLoop_reach uc fp _ (initParser t) q ht hq

theorem commit_counter_eq_card_witness :
    Reach ⟨[("Bob".toList, ⟨0, 1, 1⟩)], [("Bob".toList, ["def456".toList])], []⟩ ∧
    (statOf ⟨[("Bob".toList, ⟨0, 1, 1⟩)], [("Bob".toList, ["def456".toList])], []⟩
        "Bob".toList).commits
      = ((commitsOf ⟨[("Bob".toList, ⟨0, 1, 1⟩)], [("Bob".toList, ["def456".toList])], []⟩
        "Bob".toList).toFinset.card : Int) :=
  ⟨Reach.emptyFile (some "commit def456\nAuthor: Bob <bob@x.com>\n".toList) emptyTables _
      Reach.init (by decide),
    commit_counter_eq_card _
      (Reach.emptyFile (some "commit def456\nAuthor: Bob <bob@x.com>\n".toList) emptyTables _
        Reach.init (by decide)) "Bob".toList⟩

/-- C7: evaluation of the code on an empty file: `processEmptyFile` counts
the file README for Bob without recording it in `files`, so the file counter
is 1 while the file set of Bob is empty. -/
theorem emptyFile_file_counter_without_set :
    processFile false "README".toList []
        (some "commit def456\nAuthor: Bob <bob@x.com>\n".toList) emptyTables
      = some ⟨[("Bob".toList, ⟨0, 1, 1⟩)], [("Bob".toList, ["def456".toList])], []⟩ ∧
    (statOf ⟨[("Bob".toList, ⟨0, 1, 1⟩)], [("Bob".toList, ["def456".toList])], []⟩
      "Bob".toList).files = 1 ∧
    filesOf ⟨[("Bob".toList, ⟨0, 1, 1⟩)], [("Bob".toList, ["def456".toList])], []⟩
      "Bob".toList = [] := by
  decide

/-! ## The loop of `processFile` on a report in the format of the parser -/

theorem blameSteps_append (uc : Bool) (fp : Str) (l1 l2 : List Str) (p : Parser) :
    blameSteps uc fp (l1 ++ l2) p = (blameSteps uc fp l1 p).bind (blameSteps uc fp l2) := by
  induction l1 generalizing p with
  | nil => rfl
  | cons l ls ih =>
    simp only [List.cons_append, blameSteps]
    cases lineStep uc fp false l p with
    | none => rfl
    | some q => exact ih q

theorem blameLoop_append_last (uc : Bool) (fp : Str) (l : List Str) (x : Str) (p : Parser) :
    blameLoop uc fp (l ++ [x]) p = (blameSteps uc fp l p).bind (lineStep uc fp true x) := by
  induction l generalizing p with
  | nil =>
    simp only [List.nil_append, blameLoop, blameSteps, List.isEmpty_nil, Option.some_bind]
    cases lineStep uc fp true x p <;> rfl
  | cons l ls ih =>
    have hne : (ls ++ [x]).isEmpty = false := by cases ls <;> rfl
    show (match lineStep uc fp (ls ++ [x]).isEmpty l p with
      | none => none
      | some q => blameLoop uc fp (ls ++ [x]) q) = _
    rw [hne]
    show _ = (match lineStep uc fp false l p with
      | none => none
      | some q => blameSteps uc fp ls q).bind _
    cases lineStep uc fp false l p with
    | none => rfl
    | some q => exact ih q

theorem metaStep_eq (uc : Bool) (line : Str) (p : Parser) (h : fields line ≠ []) :
    metaStep uc line (fields line) p = some (applyMeta uc line p) := by
  have hl : line ≠ [] := by rintro rfl; exact h rfl
  unfold metaStep applyMeta isIdentityLine
  cases hf : fields line with
  | nil => exact absurd hf h
  | cons w ws =>
    simp only [hl, if_false, decide_eq_true_eq]
    split <;> rfl

theorem applyMeta_countdown (uc : Bool) (line : Str) (p : Parser) :
    (applyMeta uc line p).linesUntilHeader = p.linesUntilHeader ∧
    (applyMeta uc line p).successiveLines = p.successiveLines ∧
    (applyMeta uc line p).commitHash = p.commitHash ∧
    (applyMeta uc line p).tables = p.tables ∧
    (applyMeta uc line p).log = p.log := by
  unfold applyMeta
  split <;> exact ⟨rfl, rfl, rfl, rfl, rfl⟩

/-- A metadata line read while the countdown is not zero only runs the switch. -/
theorem lineStep_meta (uc : Bool) (fp : Str) (isLast : Bool) (line : Str) (p : Parser)
    (htab : hasTabPrefix line = false) (hf : fields line ≠ [])
    (hp : p.linesUntilHeader ≠ 0) :
    lineStep uc fp isLast line p = some (applyMeta uc line p) := by
  unfold lineStep
  simp only [htab, Bool.false_eq_true, if_false, metaStep_eq uc line p hf]
  unfold creditStep
  simp [(applyMeta_countdown uc line p).1, hp]

theorem blameSteps_meta (uc : Bool) (fp : Str) (ms : List Str) (p : Parser)
    (hms : ∀ m ∈ ms, hasTabPrefix m = false ∧ fields m ≠ [])
    (hp : p.linesUntilHeader ≠ 0) :
    blameSteps uc fp ms p = some (ms.foldl (fun q m => applyMeta uc m q) p) := by
  induction ms generalizing p with
  | nil => rfl
  | cons m ms ih =>
    have hm := hms m (List.mem_cons_self _ _)
    simp only [blameSteps, lineStep_meta uc fp false m p hm.1 hm.2 hp, List.foldl_cons]
    refine ih _ (fun x hx => hms x (List.mem_cons_of_mem _ hx)) ?_
    rw [(applyMeta_countdown uc m p).1]
    exact hp

theorem foldl_applyMeta_countdown (uc : Bool) (ms : List Str) (p : Parser) :
    (ms.foldl (fun q m => applyMeta uc m q) p).linesUntilHeader = p.linesUntilHeader ∧
    (ms.foldl (fun q m => applyMeta uc m q) p).successiveLines = p.successiveLines ∧
    (ms.foldl (fun q m => applyMeta uc m q) p).commitHash = p.commitHash ∧
    (ms.foldl (fun q m => applyMeta uc m q) p).tables = p.tables ∧
    (ms.foldl (fun q m => applyMeta uc m q) p).log = p.log := by
  induction ms generalizing p with
  | nil => exact ⟨rfl, rfl, rfl, rfl, rfl⟩
  | cons m ms ih =>
    simp only [List.foldl_cons]
    obtain ⟨a1, a2, a3, a4, a5⟩ := ih (applyMeta uc m p)
    obtain ⟨b1, b2, b3, b4, b5⟩ := applyMeta_countdown uc m p
    exact ⟨a1.trans b1, a2.trans b2, a3.trans b3, a4.trans b4, a5.trans b5⟩

theorem blameSteps_content (uc : Bool) (fp : Str) (ls : List Str) (p : Parser)
    (hls : ∀ l ∈ ls, hasTabPrefix l = true) :
    blameSteps uc fp ls p
      = some { p with linesUntilHeader := p.linesUntilHeader - (ls.length : Int) } := by
  induction ls generalizing p with
  | nil => simp [blameSteps]
  | cons l ls ih =>
    have hl := hls l (List.mem_cons_self _ _)
    simp only [blameSteps, lineStep, hl, if_true]
    rw [ih _ (fun x hx => hls x (List.mem_cons_of_mem _ hx))]
    simp only [List.length_cons, Nat.cast_add, Nat.cast_one, Option.some.injEq]
    congr 1
    ring

/-- The header of a well-formed hunk, read with the countdown at zero. -/
theorem lineStep_header (uc : Bool) (fp : Str) (h : Hunk) (p : Parser) (hwf : h.WellFormed)
    (hp : p.linesUntilHeader = 0) :
    lineStep uc fp false h.header p
      = some { credited fp (applyMeta uc h.header p) with
          commitHash := h.commit
          commitAuthor := authorOf (credited fp (applyMeta uc h.header p)).commitAuthors h.commit
          successiveLines := (h.content.length : Int)
          linesUntilHeader := (h.content.length : Int) } := by
  obtain ⟨htab, hlen, hcount, -⟩ := hwf
  have hf : fields h.header ≠ [] := by
    intro e; rw [e] at hlen; exact absurd hlen (by decide)
  unfold lineStep
  simp only [htab, Bool.false_eq_true, if_false, metaStep_eq uc h.header p hf]
  unfold creditStep
  simp only [(applyMeta_countdown uc h.header p).1, hp, if_true, Bool.false_eq_true, if_false]
  unfold headerStep Hunk.commit
  cases hw : fields h.header with
  | nil => exact absurd hw hf
  | cons w ws =>
    rw [hw] at hlen hcount
    simp only [hlen, if_true, hcount, List.headD_cons]
    rfl

theorem blameSteps_hunk (uc : Bool) (fp : Str) (h : Hunk) (p : Parser) (hwf : h.WellFormed)
    (hp : p.linesUntilHeader = 0) :
    blameSteps uc fp h.lines p = some (afterHunk uc fp h p) := by
  have hwf2 := hwf
  obtain ⟨-, -, -, hmeta, hcontent, hone, -⟩ := hwf2
  unfold Hunk.lines
  simp only [blameSteps, lineStep_header uc fp h p hwf hp]
  rw [blameSteps_append, blameSteps_meta uc fp h.metadata _ hmeta (by show (h.content.length : Int) ≠ 0; omega)]
  simp only [Option.some_bind]
  rw [blameSteps_content uc fp h.content _ hcontent]
  simp only [(foldl_applyMeta_countdown uc h.metadata _).1, sub_self]
  rfl

theorem afterHunk_countdown (uc : Bool) (fp : Str) (h : Hunk) (p : Parser) :
    (afterHunk uc fp h p).linesUntilHeader = 0 := rfl

theorem afterHunk_successive (uc : Bool) (fp : Str) (h : Hunk) (p : Parser) :
    (afterHunk uc fp h p).successiveLines = (h.content.length : Int) := by
  unfold afterHunk
  exact (foldl_applyMeta_countdown uc h.metadata _).2.1

theorem afterHunk_commitHash (uc : Bool) (fp : Str) (h : Hunk) (p : Parser) :
    (afterHunk uc fp h p).commitHash = h.commit := by
  unfold afterHunk
  exact (foldl_applyMeta_countdown uc h.metadata _).2.2.1

theorem afterHunk_log (uc : Bool) (fp : Str) (h : Hunk) (p : Parser) :
    (afterHunk uc fp h p).log = p.log ++ [creditOf (applyMeta uc h.header p)] := by
  unfold afterHunk
  simp only
  rw [(foldl_applyMeta_countdown uc h.metadata _).2.2.2.2]
  show (credited fp (applyMeta uc h.header p)).log = _
  unfold credited
  simp only [(applyMeta_countdown uc h.header p).2.2.2.2]

theorem afterHunk_tables (uc : Bool) (fp : Str) (h : Hunk) (p : Parser) :
    (afterHunk uc fp h p).tables = (credited fp (applyMeta uc h.header p)).tables := by
  unfold afterHunk
  exact (foldl_applyMeta_countdown uc h.metadata _).2.2.2.1

theorem afterHunks_countdown (uc : Bool) (fp : Str) (hs : List Hunk) (p : Parser)
    (hp : p.linesUntilHeader = 0) : (afterHunks uc fp hs p).linesUntilHeader = 0 := by
  induction hs generalizing p with
  | nil => exact hp
  | cons h hs ih => exact ih _ (afterHunk_countdown uc fp h p)

theorem afterHunks_append (uc : Bool) (fp : Str) (xs ys : List Hunk) (p : Parser) :
    afterHunks uc fp (xs ++ ys) p = afterHunks uc fp ys (afterHunks uc fp xs p) := by
  unfold afterHunks
  exact List.foldl_append _ _ _ _

theorem blameSteps_report (uc : Bool) (fp : Str) (hs : List Hunk) (p : Parser)
    (hwf : ∀ h ∈ hs, h.WellFormed) (hp : p.linesUntilHeader = 0) :
    blameSteps uc fp (reportLines hs) p = some (afterHunks uc fp hs p) := by
  induction hs generalizing p with
  | nil => rfl
  | cons h hs ih =>
    simp only [reportLines]
    rw [blameSteps_append, blameSteps_hunk uc fp h p (hwf h (List.mem_cons_self _ _)) hp]
    exact ih _ (fun x hx => hwf x (List.mem_cons_of_mem _ hx)) (afterHunk_countdown uc fp h p)

/-- The last line of a report that ends with a newline, read with the countdown
at zero: the aggregation block runs and no header is read. -/
theorem lineStep_last (uc : Bool) (fp : Str) (p : Parser) (hp : p.linesUntilHeader = 0) :
    lineStep uc fp true [] p = some (credited fp p) := by
  simp [lineStep, hasTabPrefix, metaStep, creditStep, hp, credited]

/-- The loop of `processFile` on the lines of a well-formed report. -/
theorem blameLoop_report (uc : Bool) (fp : Str) (hs : List Hunk) (p : Parser)
    (hwf : ∀ h ∈ hs, h.WellFormed) (hp : p.linesUntilHeader = 0) :
    blameLoop uc fp (reportLines hs ++ [[]]) p = some (credited fp (afterHunks uc fp hs p)) := by
  rw [blameLoop_append_last, blameSteps_report uc fp hs p hwf hp]
  exact lineStep_last uc fp _ (afterHunks_countdown uc fp hs p hp)

theorem splitNL_ne_nil (s : Str) : splitNL s ≠ [] := by
  cases s with
  | nil => simp [splitNL]
  | cons c cs =>
    simp only [splitNL]
    split
    · simp
    · split <;> simp

theorem splitNL_line (l r : Str) (h : '\n' ∉ l) : splitNL (l ++ '\n' :: r) = l :: splitNL r := by
  induction l with
  | nil => simp [splitNL]
  | cons c cs ih =>
    have hc : c ≠ '\n' := fun e => h (by rw [e]; exact List.mem_cons_self _ _)
    have hcs : '\n' ∉ cs := fun e => h (List.mem_cons_of_mem _ e)
    show splitNL (c :: (cs ++ '\n' :: r)) = _
    simp only [splitNL, hc, if_false, ih hcs]

theorem splitNL_no_newline (l : Str) (h : '\n' ∉ l) : splitNL l = [l] := by
  induction l with
  | nil => rfl
  | cons c cs ih =>
    have hc : c ≠ '\n' := fun e => h (by rw [e]; exact List.mem_cons_self _ _)
    have hcs : '\n' ∉ cs := fun e => h (List.mem_cons_of_mem _ e)
    simp only [splitNL, hc, if_false, ih hcs]

theorem splitNL_unlines (ls : List Str) (h : ∀ l ∈ ls, '\n' ∉ l) :
    splitNL (unlines ls) = ls ++ [[]] := by
  induction ls with
  | nil => rfl
  | cons l ls ih =>
    simp only [unlines]
    rw [splitNL_line l _ (h l (List.mem_cons_self _ _)),
      ih (fun x hx => h x (List.mem_cons_of_mem _ hx))]
    rfl

theorem reportLines_no_newline (hs : List Hunk) (hwf : ∀ h ∈ hs, h.WellFormed) :
    ∀ l ∈ reportLines hs, '\n' ∉ l := by
  induction hs with
  | nil => intro l hl; simp [reportLines] at hl
  | cons h hs ih =>
    intro l hl
    simp only [reportLines, List.mem_append] at hl
    rcases hl with hl | hl
    · exact (hwf h (List.mem_cons_self _ _)).2.2.2.2.2.2 l hl
    · exact ih (fun x hx => hwf x (List.mem_cons_of_mem _ hx)) l hl

theorem splitNL_reportText (hs : List Hunk) (hwf : ∀ h ∈ hs, h.WellFormed) :
    splitNL (reportText hs) = reportLines hs ++ [[]] :=
  splitNL_unlines _ (reportLines_no_newline hs hwf)

theorem contentLineCount_append (xs ys : List Str) :
    contentLineCount (xs ++ ys) = contentLineCount xs + contentLineCount ys := by
  simp [contentLineCount]

theorem contentLineCount_hunk (h : Hunk) (hwf : h.WellFormed) :
    contentLineCount h.lines = h.content.length := by
  obtain ⟨htab, -, -, hmeta, hcontent, -, -⟩ := hwf
  have h1 : h.metadata.filter hasTabPrefix = [] := by
    rw [List.filter_eq_nil_iff]
    intro m hm
    rw [(hmeta m hm).1]
    decide
  have h2 : h.content.filter hasTabPrefix = h.content := by
    rw [List.filter_eq_self]
    exact hcontent
  simp [contentLineCount, Hunk.lines, List.filter_cons, htab, h1, h2]

/-- The invariant of the log on a well-formed report: the lines credited so
far and the count of the open hunk add up to the content lines read. -/
theorem creditedLines_afterHunks (uc : Bool) (fp : Str) (hs : List Hunk) (p : Parser)
    (hwf : ∀ h ∈ hs, h.WellFormed) :
    creditedLines (afterHunks uc fp hs p).log + (afterHunks uc fp hs p).successiveLines
      = creditedLines p.log + p.successiveLines + (contentLineCount (reportLines hs) : Int) := by
  induction hs generalizing p with
  | nil => simp [afterHunks, reportLines, contentLineCount]
  | cons h hs ih =>
    have hh := hwf h (List.mem_cons_self _ _)
    have := ih (afterHunk uc fp h p) (fun x hx => hwf x (List.mem_cons_of_mem _ hx))
    simp only [afterHunks, List.foldl_cons] at this ⊢
    rw [this, afterHunk_log, afterHunk_successive]
    simp only [reportLines, contentLineCount_append, contentLineCount_hunk h hh, creditedLines,
      List.map_append, List.sum_append, List.map_cons, List.map_nil, List.sum_cons,
      List.sum_nil, creditOf, (applyMeta_countdown uc h.header p).2.1, Nat.cast_add]
    ring

/-- C2: for every report in the format of the parser (hunks with a header
carrying the line count, metadata lines and that many tab-prefixed content
lines, every line ended by a newline) the loop of `processFile` returns and
the line counts it credits add up to the number of tab-prefixed lines of the
report. -/
theorem blame_line_conservation (uc : Bool) (fp : Str) (t : Tables) (hs : List Hunk)
    (logOut : Option Str) (hwf : ∀ h ∈ hs, h.WellFormed) :
    ∃ q, blameLoop uc fp (splitNL (reportText hs)) (initParser t) = some q ∧
      (hs ≠ [] → processFile uc fp (reportText hs) logOut t = some q.tables) ∧
      creditedLines q.log = (contentLineCount (splitNL (reportText hs)) : Int) := by
  have hrun := blameLoop_report uc fp hs (initParser t) hwf rfl
  rw [← splitNL_reportText hs hwf] at hrun
  refine ⟨_, hrun, ?_, ?_⟩
  · intro hne
    have htext : reportText hs ≠ [] := by
      cases hs with
      | nil => exact absurd rfl hne
      | cons h hs => simp [reportText, reportLines, Hunk.lines, unlines]
    unfold processFile
    rw [if_neg htext, hrun]
    rfl
  rw [splitNL_reportText hs hwf]
  have h := creditedLines_afterHunks uc fp hs (initParser t) hwf
  have hlog : creditedLines (credited fp (afterHunks uc fp hs (initParser t))).log
      = creditedLines (afterHunks uc fp hs (initParser t)).log
        + (afterHunks uc fp hs (initParser t)).successiveLines := by
    simp [credited, creditedLines, creditOf]
  rw [hlog, h, contentLineCount_append]
  simp [initParser, creditedLines, contentLineCount, hasTabPrefix]

/-! ## The credited identity -/

theorem authorOf_insert (m : List (Str × Str)) (k v c : Str) :
    authorOf (insert m k v) c = if k = c then v else authorOf m c := by
  unfold authorOf
  rw [lookup_insert]
  split <;> rfl

theorem applyMeta_coherent (uc : Bool) (line : Str) (p : Parser)
    (hc : p.commitAuthor = authorOf p.commitAuthors p.commitHash) :
    (applyMeta uc line p).commitAuthor
      = authorOf (applyMeta uc line p).commitAuthors (applyMeta uc line p).commitHash := by
  unfold applyMeta
  split
  · simp [authorOf_insert]
  · exact hc

theorem metaStep_cases (uc : Bool) (line : Str) (p m : Parser)
    (h : metaStep uc line (fields line) p = some m) : m = p ∨ m = applyMeta uc line p := by
  by_cases hf : fields line = []
  · left
    unfold metaStep at h
    rw [hf] at h
    split at h
    · exact (Option.some.inj h).symm
    · exact absurd h (by simp)
  · right
    rw [metaStep_eq uc line p hf] at h
    exact (Option.some.inj h).symm

/-- One line of any report keeps the identity of the open hunk equal to the
entry of `commitAuthors` for its commit, and every credit is made to that
entry. -/
theorem lineStep_coherent (uc : Bool) (fp : Str) (isLast : Bool) (line : Str) (p q : Parser)
    (h : lineStep uc fp isLast line p = some q)
    (hc : p.commitAuthor = authorOf p.commitAuthors p.commitHash)
    (hl : ∀ cr ∈ p.log, cr.author = cr.stored) :
    q.commitAuthor = authorOf q.commitAuthors q.commitHash ∧
      ∀ cr ∈ q.log, cr.author = cr.stored := by
  unfold lineStep at h
  split at h
  · simp only [Option.some.injEq] at h
    subst h
    exact ⟨hc, hl⟩
  · split at h
    · exact absurd h (by simp)
    · rename_i m hm
      have hmc : m.commitAuthor = authorOf m.commitAuthors m.commitHash ∧ m.log = p.log := by
        rcases metaStep_cases uc line p m hm with e | e
        · rw [e]; exact ⟨hc, rfl⟩
        · rw [e]; exact ⟨applyMeta_coherent uc line p hc, (applyMeta_countdown uc line p).2.2.2.2⟩
      obtain ⟨hmc, hml⟩ := hmc
      unfold creditStep at h
      split at h
      · have hlog : ∀ cr ∈ m.log ++ [creditOf m], cr.author = cr.stored := by
          intro cr hcr
          rw [List.mem_append, List.mem_singleton] at hcr
          rcases hcr with hcr | hcr
          · exact hl cr (hml ▸ hcr)
          · rw [hcr]; exact hmc
        split at h
        · simp only [Option.some.injEq] at h
          subst h
          exact ⟨hmc, hlog⟩
        · unfold headerStep at h
          split at h
          · exact absurd h (by simp)
          · simp only [Option.some.injEq] at h
            subst h
            exact ⟨rfl, hlog⟩
      · simp only [Option.some.injEq] at h
        subst h
        exact ⟨hmc, fun cr hcr => hl cr (hml ▸ hcr)⟩

theorem blameLoop_coherent (uc : Bool) (fp : Str) (lines : List Str) (p q : Parser)
    (h : blameLoop uc fp lines p = some q)
    (hc : p.commitAuthor = authorOf p.commitAuthors p.commitHash)
    (hl : ∀ cr ∈ p.log, cr.author = cr.stored) :
    q.commitAuthor = authorOf q.commitAuthors q.commitHash ∧
      ∀ cr ∈ q.log, cr.author = cr.stored := by
  induction lines generalizing p with
  | nil =>
    simp only [blameLoop, Option.some.injEq] at h
    subst h
    exact ⟨hc, hl⟩
  | cons l ls ih =>
    simp only [blameLoop] at h
    split at h
    · exact absurd h (by simp)
    · rename_i m hm
      obtain ⟨h1, h2⟩ := lineStep_coherent uc fp _ l p m hm hc hl
      exact ih m h h1 h2

theorem applyMeta_of_not_identity (uc : Bool) (line : Str) (p : Parser)
    (h : isIdentityLine uc line = false) : applyMeta uc line p = p := by
  simp [applyMeta, h]

theorem authorOf_applyMeta (uc : Bool) (line : Str) (p : Parser) (c : Str)
    (h : isIdentityLine uc line = false ∨ c ≠ p.commitHash) :
    authorOf (applyMeta uc line p).commitAuthors c = authorOf p.commitAuthors c := by
  unfold applyMeta
  split
  · rename_i hid
    rcases h with h | h
    · rw [h] at hid; exact absurd hid (by decide)
    · simp only [authorOf_insert]
      rw [if_neg (fun e => h e.symm)]
  · rfl

theorem authorOf_foldl_applyMeta (uc : Bool) (ms : List Str) (p : Parser) (c : Str)
    (h : (∀ m ∈ ms, isIdentityLine uc m = false) ∨ c ≠ p.commitHash) :
    authorOf (ms.foldl (fun q m => applyMeta uc m q) p).commitAuthors c
      = authorOf p.commitAuthors c := by
  induction ms generalizing p with
  | nil => rfl
  | cons m ms ih =>
    simp only [List.foldl_cons]
    rw [ih (applyMeta uc m p), authorOf_applyMeta]
    · rcases h with h | h
      · exact Or.inl (h m (List.mem_cons_self _ _))
      · exact Or.inr h
    · rcases h with h | h
      · exact Or.inl (fun x hx => h x (List.mem_cons_of_mem _ hx))
      · right
        rw [(applyMeta_countdown uc m p).2.2.1]
        exact h

theorem foldl_applyMeta_coherent (uc : Bool) (ms : List Str) (p : Parser)
    (hc : p.commitAuthor = authorOf p.commitAuthors p.commitHash) :
    (ms.foldl (fun q m => applyMeta uc m q) p).commitAuthor
      = authorOf (ms.foldl (fun q m => applyMeta uc m q) p).commitAuthors
          (ms.foldl (fun q m => applyMeta uc m q) p).commitHash := by
  induction ms generalizing p with
  | nil => exact hc
  | cons m ms ih => exact ih _ (applyMeta_coherent uc m p hc)

theorem afterHunk_coherent (uc : Bool) (fp : Str) (h : Hunk) (p : Parser) :
    (afterHunk uc fp h p).commitAuthor
      = authorOf (afterHunk uc fp h p).commitAuthors h.commit := by
  have := foldl_applyMeta_coherent uc h.metadata
    { credited fp (applyMeta uc h.header p) with
      commitHash := h.commit
      commitAuthor := authorOf (credited fp (applyMeta uc h.header p)).commitAuthors h.commit
      successiveLines := (h.content.length : Int)
      linesUntilHeader := (h.content.length : Int) } rfl
  rw [(foldl_applyMeta_countdown uc h.metadata _).2.2.1] at this
  exact this

theorem authorOf_afterHunk (uc : Bool) (fp : Str) (h : Hunk) (p : Parser) (c : Str)
    (hh : isIdentityLine uc h.header = false)
    (hm : h.commit = c → ∀ m ∈ h.metadata, isIdentityLine uc m = false) :
    authorOf (afterHunk uc fp h p).commitAuthors c = authorOf p.commitAuthors c := by
  unfold afterHunk
  simp only [applyMeta_of_not_identity uc h.header p hh]
  rw [authorOf_foldl_applyMeta]
  · rfl
  · by_cases hcc : h.commit = c
    · exact Or.inl (hm hcc)
    · exact Or.inr (fun e => hcc e.symm)

theorem authorOf_afterHunks (uc : Bool) (fp : Str) (hs : List Hunk) (p : Parser) (c : Str)
    (hh : ∀ h ∈ hs, isIdentityLine uc h.header = false ∧
      (h.commit = c → ∀ m ∈ h.metadata, isIdentityLine uc m = false)) :
    authorOf (afterHunks uc fp hs p).commitAuthors c = authorOf p.commitAuthors c := by
  induction hs generalizing p with
  | nil => rfl
  | cons h hs ih =>
    have h1 := hh h (List.mem_cons_self _ _)
    show authorOf (afterHunks uc fp hs (afterHunk uc fp h p)).commitAuthors c = _
    rw [ih _ (fun x hx => hh x (List.mem_cons_of_mem _ hx)),
      authorOf_afterHunk uc fp h p c h1.1 h1.2]

theorem hunkCredits_append (uc : Bool) (fp : Str) (xs ys : List Hunk) (p : Parser) :
    hunkCredits uc fp (xs ++ ys) p
      = hunkCredits uc fp xs p ++ hunkCredits uc fp ys (afterHunks uc fp xs p) := by
  induction xs generalizing p with
  | nil => rfl
  | cons x xs ih =>
    show creditOf (afterHunk uc fp x p) :: hunkCredits uc fp (xs ++ ys) (afterHunk uc fp x p) = _
    rw [ih]
    rfl

theorem hunkCredits_length (uc : Bool) (fp : Str) (hs : List Hunk) (p : Parser) :
    (hunkCredits uc fp hs p).length = hs.length := by
  induction hs generalizing p with
  | nil => rfl
  | cons h hs ih => simp [hunkCredits, ih]

/-- The log at the end of a well-formed report: the credit of the state before
the report, then one credit for each hunk. -/
theorem log_credited_afterHunks (uc : Bool) (fp : Str) (hs : List Hunk) (p : Parser)
    (hh : ∀ h ∈ hs, isIdentityLine uc h.header = false) :
    (credited fp (afterHunks uc fp hs p)).log = p.log ++ creditOf p :: hunkCredits uc fp hs p := by
  induction hs generalizing p with
  | nil => rfl
  | cons h hs ih =>
    show (credited fp (afterHunks uc fp hs (afterHunk uc fp h p))).log = _
    rw [ih _ (fun x hx => hh x (List.mem_cons_of_mem _ hx)), afterHunk_log,
      applyMeta_of_not_identity uc h.header p (hh h (List.mem_cons_self _ _))]
    simp [hunkCredits]

/-- C3: in a report in the format of the parser, two hunks `h1` and `h2` of
one commit, with hunks of any commits between them, are credited to the same
identity when the identity line of that commit is not given again after `h1`;
and every credit of the run is made to the author that `commitAuthors` stores
for the credited commit at that point. -/
theorem same_commit_same_author (uc : Bool) (fp : Str) (t : Tables)
    (pre mid post : List Hunk) (h1 h2 : Hunk)
    (hwf : ∀ h ∈ pre ++ h1 :: (mid ++ h2 :: post),
      h.WellFormed ∧ isIdentityLine uc h.header = false)
    (hc : h2.commit = h1.commit)
    (hfirst : ∀ h ∈ mid ++ [h2], h.commit = h1.commit →
      ∀ m ∈ h.metadata, isIdentityLine uc m = false) :
    ∃ q l0 cr1 l1 cr2 l2,
      blameLoop uc fp (splitNL (reportText (pre ++ h1 :: (mid ++ h2 :: post)))) (initParser t)
        = some q ∧
      q.log = l0 ++ cr1 :: (l1 ++ cr2 :: l2) ∧
      l0.length = pre.length + 1 ∧ l1.length = mid.length ∧
      cr1.commit = h1.commit ∧ cr2.commit = h2.commit ∧
      cr1.author = cr2.author ∧
      ∀ cr ∈ q.log, cr.author = cr.stored := by
  have hwf1 : ∀ h ∈ pre ++ h1 :: (mid ++ h2 :: post), h.WellFormed := fun h hh => (hwf h hh).1
  have hid : ∀ h ∈ pre ++ h1 :: (mid ++ h2 :: post), isIdentityLine uc h.header = false :=
    fun h hh => (hwf h hh).2
  have hrun := blameLoop_report uc fp _ (initParser t) hwf1 rfl
  rw [← splitNL_reportText _ hwf1] at hrun
  have hcoh := blameLoop_coherent uc fp _ _ _ hrun rfl (by intro cr hcr; simp [initParser] at hcr)
  refine ⟨_, creditOf (initParser t) :: hunkCredits uc fp pre (initParser t),
    creditOf (afterHunk uc fp h1 (afterHunks uc fp pre (initParser t))),
    hunkCredits uc fp mid (afterHunk uc fp h1 (afterHunks uc fp pre (initParser t))),
    creditOf (afterHunk uc fp h2
      (afterHunks uc fp mid (afterHunk uc fp h1 (afterHunks uc fp pre (initParser t))))),
    hunkCredits uc fp post (afterHunk uc fp h2
      (afterHunks uc fp mid (afterHunk uc fp h1 (afterHunks uc fp pre (initParser t))))),
    hrun, ?_, ?_, ?_, ?_, ?_, ?_, hcoh.2⟩
  · rw [log_credited_afterHunks uc fp _ _ hid, hunkCredits_append]
    simp only [hunkCredits, hunkCredits_append]
    simp [initParser]
  · simp [hunkCredits_length]
  · exact hunkCredits_length uc fp mid _
  · exact afterHunk_commitHash uc fp h1 _
  · exact afterHunk_commitHash uc fp h2 _
  · show (afterHunk uc fp h1 _).commitAuthor = (afterHunk uc fp h2 _).commitAuthor
    rw [afterHunk_coherent, afterHunk_coherent, hc]
    rw [authorOf_afterHunk uc fp h2 _ h1.commit
      (hid h2 (by simp)) (fun e => hfirst h2 (by simp) e)]
    rw [authorOf_afterHunks uc fp mid _ h1.commit]
    intro h hh
    exact ⟨hid h (by simp [hh]), fun e => hfirst h (by simp [hh]) e⟩

/-! ## Words of `strings.Fields` -/

theorem fields_cons_space (c : Char) (cs : Str) (h : isSpace c = true) :
    fields (c :: cs) = fields cs := by
  simp [fields, h]

theorem fields_token_space (w : Str) (hw : isToken w) (s : Char) (hs : isSpace s = true)
    (r : Str) : fields (w ++ s :: r) = w :: fields r := by
  obtain ⟨hne, hall⟩ := hw
  induction w with
  | nil => exact absurd rfl hne
  | cons c cs ih =>
    have hc : isSpace c = false := hall c (List.mem_cons_self _ _)
    cases cs with
    | nil =>
      show fields (c :: s :: r) = _
      simp [fields, hc, hs]
    | cons d ds =>
      have hd : isSpace d = false := hall d (List.mem_cons_of_mem _ (List.mem_cons_self _ _))
      have := ih (by simp) (fun x hx => hall x (List.mem_cons_of_mem _ hx))
      show fields (c :: d :: (ds ++ s :: r)) = _
      rw [fields.eq_3]
      simp only [hc, hd, Bool.false_eq_true, if_false]
      rw [show d :: (ds ++ s :: r) = (d :: ds) ++ s :: r from rfl, this]

theorem fields_token (w : Str) (hw : isToken w) : fields w = [w] := by
  obtain ⟨hne, hall⟩ := hw
  induction w with
  | nil => exact absurd rfl hne
  | cons c cs ih =>
    have hc : isSpace c = false := hall c (List.mem_cons_self _ _)
    cases cs with
    | nil => simp [fields, hc]
    | cons d ds =>
      have hd : isSpace d = false := hall d (List.mem_cons_of_mem _ (List.mem_cons_self _ _))
      have := ih (by simp) (fun x hx => hall x (List.mem_cons_of_mem _ hx))
      rw [fields.eq_3]
      simp only [hc, hd, Bool.false_eq_true, if_false]
      rw [this]

theorem fields_ne_nil_of_head (c : Char) (cs : Str) (hc : isSpace c = false) :
    fields (c :: cs) ≠ [] := by
  cases cs with
  | nil => simp [fields, hc]
  | cons d ds =>
    rw [fields.eq_3]
    simp only [hc, Bool.false_eq_true, if_false]
    split
    · simp
    · split <;> simp

theorem fields_append_space_token (x : Str) (s : Char) (hs : isSpace s = true) (w : Str)
    (hw : isToken w) : fields (x ++ s :: w) = fields x ++ [w] := by
  induction x with
  | nil =>
    show fields (s :: w) = _
    rw [fields_cons_space s w hs, fields_token w hw]
    rfl
  | cons c cs ih =>
    by_cases hc : isSpace c = true
    · show fields (c :: (cs ++ s :: w)) = _
      rw [fields_cons_space c _ hc, fields_cons_space c _ hc, ih]
    · have hc : isSpace c = false := by simpa using hc
      cases cs with
      | nil =>
        show fields (c :: s :: w) = _
        simp only [fields, hc, hs, Bool.false_eq_true, if_false, if_true]
        rw [fields_token w hw]
        rfl
      | cons d ds =>
        show fields (c :: d :: (ds ++ s :: w)) = fields (c :: d :: ds) ++ [w]
        rw [fields.eq_3, fields.eq_3 c d ds]
        simp only [hc, Bool.false_eq_true, if_false]
        by_cases hd : isSpace d = true
        · simp only [hd, if_true]
          rw [show d :: (ds ++ s :: w) = (d :: ds) ++ s :: w from rfl, ih]
          rfl
        · have hd : isSpace d = false := by simpa using hd
          simp only [hd, Bool.false_eq_true, if_false]
          rw [show d :: (ds ++ s :: w) = (d :: ds) ++ s :: w from rfl, ih]
          have hne := fields_ne_nil_of_head d ds hd
          cases hf : fields (d :: ds) with
          | nil => exact absurd hf hne
          | cons y ys => rfl

theorem isSpace_of_isDigit (c : Char) (h : isDigit c = true) : isSpace c = false := by
  simp only [isDigit, Bool.and_eq_true, decide_eq_true_eq] at h
  simp only [isSpace, Bool.or_eq_false_iff, Bool.and_eq_false_imp, decide_eq_true_eq,
    decide_eq_false_iff_not]
  omega

theorem natDigits_token (n : Nat) : isToken (natDigits n) := by
  refine ⟨natDigits_ne_nil n, fun c hc => isSpace_of_isDigit c ?_⟩
  have := natDigits_all n
  rw [List.all_eq_true] at this
  exact this c hc

theorem token_no_newline (w : Str) (hw : isToken w) : '\n' ∉ w := by
  intro h
  have := hw.2 _ h
  exact absurd this (by decide)

theorem token_no_tab (w : Str) (hw : isToken w) (r : Str) : hasTabPrefix (w ++ r) = false := by
  obtain ⟨hne, hall⟩ := hw
  cases w with
  | nil => exact absurd rfl hne
  | cons c cs =>
    have hc : isSpace c = false := hall c (List.mem_cons_self _ _)
    show decide (c = '\t') = false
    rw [decide_eq_false_iff_not]
    rintro rfl
    exact absurd hc (by decide)


/-! ## One hunk (Scenario A) -/

theorem unlines_ne_nil (l : Str) (ls : List Str) : unlines (l :: ls) ≠ [] := by
  simp [unlines]

theorem foldl_applyMeta_of_not_identity (uc : Bool) (ms : List Str) (p : Parser)
    (h : ∀ m ∈ ms, isIdentityLine uc m = false) :
    ms.foldl (fun q m => applyMeta uc m q) p = p := by
  induction ms generalizing p with
  | nil => rfl
  | cons m ms ih =>
    simp only [List.foldl_cons, applyMeta_of_not_identity uc m p (h m (List.mem_cons_self _ _))]
    exact ih p (fun x hx => h x (List.mem_cons_of_mem _ hx))

theorem fields_author_line (v : Str) :
    fields ("author ".toList ++ v) = "author".toList :: fields v :=
  fields_token_space "author".toList (by decide) ' ' (by decide) v

theorem isIdentityLine_author (v : Str) : isIdentityLine false ("author ".toList ++ v) = true := by
  unfold isIdentityLine
  rw [fields_author_line]
  rfl

theorem fields_header (c : Str) (hc : isToken c) (n : Nat) :
    fields (c ++ " 1 1 ".toList ++ itoa n) = [c, "1".toList, "1".toList, natDigits n] := by
  have hi : itoa (n : Int) = natDigits n := by simp [itoa]
  rw [hi, List.append_assoc]
  show fields (c ++ ' ' :: (['1'] ++ ' ' :: (['1'] ++ ' ' :: natDigits n))) = _
  rw [fields_token_space c hc ' ' (by decide), fields_token_space ['1'] (by decide) ' ' (by decide),
    fields_token_space ['1'] (by decide) ' ' (by decide), fields_token _ (natDigits_token n)]
  rfl

theorem header_wellFormed (c : Str) (hc : isToken c) (metadata content : List Str)
    (hmeta : ∀ m ∈ metadata, hasTabPrefix m = false ∧ fields m ≠ [] ∧ '\n' ∉ m)
    (hcontent : ∀ l ∈ content, hasTabPrefix l = true ∧ '\n' ∉ l)
    (hn : 1 ≤ content.length) (hmax : content.length < intCutoff) :
    Hunk.WellFormed ⟨c ++ " 1 1 ".toList ++ itoa content.length, metadata, content⟩ := by
  have hi : itoa (content.length : Int) = natDigits content.length := by simp [itoa]
  refine ⟨?_, ?_, ?_, fun m hm => ⟨(hmeta m hm).1, (hmeta m hm).2.1⟩,
    fun l hl => (hcontent l hl).1, hn, ?_⟩
  · show hasTabPrefix (c ++ " 1 1 ".toList ++ itoa content.length) = false
    rw [List.append_assoc]
    exact token_no_tab c hc _
  · show (fields (c ++ " 1 1 ".toList ++ itoa content.length)).length = 4
    rw [fields_header c hc]
    rfl
  · show atoi ((fields (c ++ " 1 1 ".toList ++ itoa content.length)).getD 3 []) = _
    rw [fields_header c hc]
    exact atoi_natDigits _ hmax
  · intro l hl
    simp only [Hunk.lines, List.mem_cons, List.mem_append] at hl
    rcases hl with hl | hl | hl
    · rw [hl, hi]
      intro hmem
      simp only [List.mem_append] at hmem
      rcases hmem with (hmem | hmem) | hmem
      · exact token_no_newline c hc hmem
      · exact absurd hmem (by decide)
      · exact token_no_newline _ (natDigits_token _) hmem
    · exact (hmeta l hl).2.2
    · exact (hcontent l hl).2

/-- C4: for a commit identifier `c` (a word other than the keyword `author`),
a non-empty identity `v`, a file path and at least one content line, parsing in
author mode, from the empty tables, the report made of the header `c 1 1 n`,
metadata lines with `author v` as their last identity line, and the `n`
tab-prefixed content lines returns, and once the empty identity is deleted the
only record left is that of `v`, with lines = n, commits = 1 and files = 1. -/
theorem single_hunk_record (c v fp : Str) (pre post content : List Str) (logOut : Option Str)
    (hc : isToken c) (hca : c ≠ "author".toList) (hv : v ≠ []) (hvn : '\n' ∉ v)
    (hpre : ∀ m ∈ pre, hasTabPrefix m = false ∧ fields m ≠ [] ∧ '\n' ∉ m)
    (hpost : ∀ m ∈ post, hasTabPrefix m = false ∧ fields m ≠ [] ∧ '\n' ∉ m ∧
      isIdentityLine false m = false)
    (hcontent : ∀ l ∈ content, hasTabPrefix l = true ∧ '\n' ∉ l)
    (hn : 1 ≤ content.length) (hmax : content.length < intCutoff) :
    ∃ t, processFile false fp
        (reportText [⟨c ++ " 1 1 ".toList ++ itoa content.length,
          pre ++ ("author ".toList ++ v) :: post, content⟩]) logOut emptyTables = some t ∧
      delete t.stats [] = [(v, ⟨content.length, 1, 1⟩)] := by
  have hmeta : ∀ m ∈ pre ++ ("author ".toList ++ v) :: post,
      hasTabPrefix m = false ∧ fields m ≠ [] ∧ '\n' ∉ m := by
    intro m hm
    simp only [List.mem_append, List.mem_cons] at hm
    rcases hm with hm | hm | hm
    · exact hpre m hm
    · subst hm
      refine ⟨rfl, ?_, ?_⟩
      · rw [fields_author_line]; simp
      · intro hmem
        simp only [List.mem_append] at hmem
        rcases hmem with hmem | hmem
        · exact absurd hmem (by decide)
        · exact hvn hmem
    · exact ⟨(hpost m hm).1, (hpost m hm).2.1, (hpost m hm).2.2.1⟩
  have hwf := header_wellFormed c hc _ content hmeta hcontent hn hmax
  have hwfs : ∀ h ∈ [(⟨c ++ " 1 1 ".toList ++ itoa content.length,
      pre ++ ("author ".toList ++ v) :: post, content⟩ : Hunk)], h.WellFormed := by
    intro h hh
    rw [List.mem_singleton] at hh
    rw [hh]; exact hwf
  have hrun := blameLoop_report false fp _ (initParser emptyTables) hwfs rfl
  rw [← splitNL_reportText _ hwfs] at hrun
  have hne : reportText [(⟨c ++ " 1 1 ".toList ++ itoa content.length,
      pre ++ ("author ".toList ++ v) :: post, content⟩ : Hunk)] ≠ [] := by
    simp [reportText, reportLines, Hunk.lines, unlines]
  have hhead : isIdentityLine false (c ++ " 1 1 ".toList ++ itoa content.length) = false := by
    unfold isIdentityLine
    rw [fields_header c hc]
    simp only [Bool.false_eq_true, and_false, or_false, decide_eq_false_iff_not, and_true,
      Bool.true_eq_false]
    exact hca
  apply Exists.intro
  refine ⟨?_, ?_⟩
  · unfold processFile
    rw [if_neg hne, hrun]
    rfl
  · have hauthor : (afterHunk false fp ⟨c ++ " 1 1 ".toList ++ itoa content.length,
        pre ++ ("author ".toList ++ v) :: post, content⟩ (initParser emptyTables)).commitAuthor
        = v := by
      unfold afterHunk
      simp only [List.foldl_append, List.foldl_cons]
      rw [foldl_applyMeta_of_not_identity false post _ (fun m hm => (hpost m hm).2.2.2)]
      simp only [applyMeta, isIdentityLine_author, if_true]
      rfl
    have hhash := afterHunk_commitHash false fp ⟨c ++ " 1 1 ".toList ++ itoa content.length,
        pre ++ ("author ".toList ++ v) :: post, content⟩ (initParser emptyTables)
    have hsucc := afterHunk_successive false fp ⟨c ++ " 1 1 ".toList ++ itoa content.length,
        pre ++ ("author ".toList ++ v) :: post, content⟩ (initParser emptyTables)
    have htab := afterHunk_tables false fp ⟨c ++ " 1 1 ".toList ++ itoa content.length,
        pre ++ ("author ".toList ++ v) :: post, content⟩ (initParser emptyTables)
    simp only [applyMeta_of_not_identity false _ _ hhead] at htab
    have hv2 : ¬ ([] : Str) = v := fun e => hv e.symm
    simp only [afterHunks, List.foldl_cons, List.foldl_nil, credited, hauthor, hhash, hsucc, htab]
    simp [initParser, emptyTables, aggregate, addLines, addCommit, addFile, statOf, commitsOf,
      filesOf, lookup, insert, delete, hv, hv2]

/-! ## Empty files (Scenario C) -/

theorem cutPrefix_append (p s : Str) : cutPrefix (p ++ s) p = s := by
  have h : p.isPrefixOf (p ++ s) = true := by
    rw [List.isPrefixOf_iff_prefix]
    exact List.prefix_append p s
  simp [cutPrefix, h]

theorem cutSuffix_append (s p : Str) : cutSuffix (s ++ p) p = s := by
  have h : p.isSuffixOf (s ++ p) = true := by
    rw [List.isSuffixOf_iff_suffix]
    exact List.suffix_append s p
  simp [cutSuffix, h]

/-- C8, amended: for a file whose blame report is empty and whose history text
begins with the line `commit h` and the line `Author: name <e>`, where `h` is a
word without white space and `e` holds no white space, `processFile` from the
empty tables returns tables whose only author record is that of `name`, with
lines = 0, commits = 1 and files = 1. -/
theorem empty_file_record (uc : Bool) (fp h name e tail : Str)
    (hh : isToken h) (he : ∀ c ∈ e, isSpace c = false) (hname : '\n' ∉ name)
    (htail : tail = [] ∨ ∃ r, tail = '\n' :: r) :
    processFile uc fp []
        (some ("commit ".toList ++ h ++ '\n' ::
          ("Author: ".toList ++ name ++ " <".toList ++ e ++ ">".toList ++ tail))) emptyTables
      = some ⟨[(name, ⟨0, 1, 1⟩)], [(name, [h])], []⟩ := by
  have hmail : isToken ('<' :: (e ++ ['>'])) := by
    refine ⟨by simp, ?_⟩
    intro c hc
    simp only [List.mem_cons, List.mem_append, List.mem_singleton] at hc
    rcases hc with hc | hc | hc
    · rw [hc]; decide
    · exact he c hc
    · rcases hc with hc | hc
      · rw [hc]; decide
      · exact absurd hc (List.not_mem_nil c)
  have hline1 : "Author: ".toList ++ name ++ " <".toList ++ e ++ ">".toList
      = ("Author: ".toList ++ name) ++ ' ' :: ('<' :: (e ++ ['>'])) := by
    simp
  have hnl0 : '\n' ∉ "commit ".toList ++ h := by
    intro hm
    rw [List.mem_append] at hm
    rcases hm with hm | hm
    · exact absurd hm (by decide)
    · exact token_no_newline h hh hm
  have hnl1 : '\n' ∉ ("Author: ".toList ++ name) ++ ' ' :: ('<' :: (e ++ ['>'])) := by
    intro hm
    rw [List.mem_append] at hm
    rcases hm with hm | hm
    · rw [List.mem_append] at hm
      rcases hm with hm | hm
      · exact absurd hm (by decide)
      · exact hname hm
    · rw [List.mem_cons] at hm
      rcases hm with hm | hm
      · exact absurd hm (by decide)
      · exact token_no_newline _ hmail hm
  have hsplit : ∃ more, splitNL ("commit ".toList ++ h ++ '\n' ::
      ("Author: ".toList ++ name ++ " <".toList ++ e ++ ">".toList ++ tail))
      = ("commit ".toList ++ h) ::
          (("Author: ".toList ++ name) ++ ' ' :: ('<' :: (e ++ ['>']))) :: more := by
    rw [splitNL_line _ _ hnl0, hline1]
    rcases htail with ht | ⟨r, ht⟩
    · subst ht
      rw [List.append_nil, splitNL_no_newline _ hnl1]
      exact ⟨[], rfl⟩
    · subst ht
      rw [splitNL_line _ _ hnl1]
      exact ⟨splitNL r, rfl⟩
  obtain ⟨more, hsplit⟩ := hsplit
  have hf0 : fields ("commit ".toList ++ h) = ["commit".toList, h] := by
    show fields ("commit".toList ++ ' ' :: h) = _
    rw [fields_token_space "commit".toList (by decide) ' ' (by decide), fields_token h hh]
  have hf1 : fields (("Author: ".toList ++ name) ++ ' ' :: ('<' :: (e ++ ['>'])))
      = fields ("Author: ".toList ++ name) ++ ['<' :: (e ++ ['>'])] :=
    fields_append_space_token _ ' ' (by decide) _ hmail
  have hcut : cutSuffix (cutPrefix (("Author: ".toList ++ name) ++ ' ' :: ('<' :: (e ++ ['>'])))
      "Author: ".toList) (' ' :: ('<' :: (e ++ ['>']))) = name := by
    rw [List.append_assoc, cutPrefix_append, cutSuffix_append]
  unfold processFile processEmptyFile
  simp only [if_true, hsplit, List.getD_cons_zero, hf0, hf1, List.getLastD_concat, hcut]
  have hne : ¬ (fields ("Author: ".toList ++ name) ++ ['<' :: (e ++ ['>'])] = []) := by simp
  rw [if_neg hne]
  simp [bumpFiles, addCommit, statOf, commitsOf, emptyTables, lookup, insert]

/-! ## A header without a count -/

/-- C9, counterexample: after a hunk of commit `a` with count 2 and a hunk of
commit `b` with count 1, the header `a 4 4` without a count opens a hunk of
commit `a` with line count 1, not the count 2 last recorded for `a`; at the end
of the report that hunk is credited one line. -/
theorem header_without_count_counterexample :
    (blameSteps false "f".toList
        ["a 1 1 2".toList, "author A".toList, "\tx".toList, "\ty".toList,
          "b 3 3 1".toList, "author B".toList, "\tz".toList, "a 4 4".toList]
        (initParser emptyTables)).map (fun q => (q.commitHash, q.successiveLines))
      = some ("a".toList, 1) ∧
    specLastCount "a".toList
        ["a 1 1 2".toList, "author A".toList, "\tx".toList, "\ty".toList,
          "b 3 3 1".toList, "author B".toList, "\tz".toList] = some 2 ∧
    (blameLoop false "f".toList
        (splitNL "a 1 1 2\nauthor A\n\tx\n\ty\nb 3 3 1\nauthor B\n\tz\na 4 4\n\tw\n".toList)
        (initParser emptyTables)).map (fun q => q.log.map (fun cr => (cr.commit, cr.lines)))
      = some [([], 0), ("a".toList, 2), ("b".toList, 1), ("a".toList, 1)] := by
  decide

/-- C9, amended: a header line whose number of fields is not four, read when
the countdown is zero, opens a hunk with the line count just credited for the
hunk before it (the running value of `successiveLines`), whatever the commit
identifiers of the two hunks. -/
theorem header_without_count_reuses_running (uc : Bool) (fp line : Str) (p : Parser)
    (hp : p.linesUntilHeader = 0) (htab : hasTabPrefix line = false)
    (hf : fields line ≠ []) (h4 : (fields line).length ≠ 4) :
    ∃ q cr, lineStep uc fp false line p = some q ∧
      q.commitHash = (fields line).headD [] ∧
      q.log = p.log ++ [cr] ∧
      q.successiveLines = cr.lines ∧ q.linesUntilHeader = cr.lines ∧
      cr.lines = p.successiveLines := by
  obtain ⟨h1, h2, -, -, h5⟩ := applyMeta_countdown uc line p
  cases hw : fields line with
  | nil => exact absurd hw hf
  | cons w ws =>
    rw [hw] at h4
    have hstep : lineStep uc fp false line p
        = some { credited fp (applyMeta uc line p) with
            commitHash := w
            commitAuthor := authorOf (applyMeta uc line p).commitAuthors w
            successiveLines := (applyMeta uc line p).successiveLines
            linesUntilHeader := (applyMeta uc line p).successiveLines } := by
      unfold lineStep
      simp only [htab, Bool.false_eq_true, if_false, metaStep_eq uc line p hf]
      unfold creditStep
      simp only [h1, hp, if_true, Bool.false_eq_true, if_false]
      unfold headerStep
      rw [hw]
      simp only [h4, if_false]
      rfl
    refine ⟨_, creditOf (applyMeta uc line p), hstep, rfl, ?_, rfl, rfl, h2⟩
    show (applyMeta uc line p).log ++ _ = _
    rw [h5]

/-! ## Instances of the theorems on concrete inputs -/

theorem less_iff_specBefore_witness :
    ("A".toList ≠ "B".toList) ∧ Stat.inRange ⟨10, 2, 1⟩ ∧ Stat.inRange ⟨5, 2, 3⟩ ∧
    ∃ sortKeys, parseArgs OrderKey.commits.flag = some sortKeys ∧
      less sortKeys (mkRow "A".toList ⟨10, 2, 1⟩) (mkRow "B".toList ⟨5, 2, 3⟩)
        = specBefore OrderKey.commits ("A".toList, ⟨10, 2, 1⟩) ("B".toList, ⟨5, 2, 3⟩) :=
  ⟨by decide, by simp [Stat.inRange, inIntRange, intCutoff],
    by simp [Stat.inRange, inIntRange, intCutoff],
    less_iff_specBefore OrderKey.commits ("A".toList, ⟨10, 2, 1⟩) ("B".toList, ⟨5, 2, 3⟩)
      (by decide) (by simp [Stat.inRange, inIntRange, intCutoff])
      (by simp [Stat.inRange, inIntRange, intCutoff])⟩

theorem less_total_order_witness :
    (cell (mkRow "A".toList ⟨1, 1, 1⟩) 0 ≠ cell (mkRow "B".toList ⟨1, 1, 1⟩) 0) ∧
    ∃ sortKeys, parseArgs OrderKey.lines.flag = some sortKeys ∧
      (less sortKeys (mkRow "A".toList ⟨1, 1, 1⟩) (mkRow "B".toList ⟨1, 1, 1⟩) = true ∨
        less sortKeys (mkRow "B".toList ⟨1, 1, 1⟩) (mkRow "A".toList ⟨1, 1, 1⟩) = true) ∧
      ¬ (less sortKeys (mkRow "A".toList ⟨1, 1, 1⟩) (mkRow "B".toList ⟨1, 1, 1⟩) = true ∧
        less sortKeys (mkRow "B".toList ⟨1, 1, 1⟩) (mkRow "A".toList ⟨1, 1, 1⟩) = true) ∧
      (less sortKeys (mkRow "A".toList ⟨1, 1, 1⟩) (mkRow "B".toList ⟨1, 1, 1⟩) = true →
        less sortKeys (mkRow "B".toList ⟨1, 1, 1⟩) (mkRow "C".toList ⟨0, 4, 1⟩) = true →
        less sortKeys (mkRow "A".toList ⟨1, 1, 1⟩) (mkRow "C".toList ⟨0, 4, 1⟩) = true) :=
  ⟨by decide,
    less_total_order OrderKey.lines (mkRow "A".toList ⟨1, 1, 1⟩) (mkRow "B".toList ⟨1, 1, 1⟩)
      (mkRow "C".toList ⟨0, 4, 1⟩) (by decide) (by decide) (by decide)⟩

theorem blame_line_conservation_witness :
    (∀ h ∈ [(⟨"abc123 1 1 3".toList, ["author Jane Doe <jane@x.com>".toList],
          ["\tone".toList, "\ttwo".toList, "\tthree".toList]⟩ : Hunk),
        ⟨"def456 4 4 1".toList, ["author Bob <bob@x.com>".toList], ["\tfour".toList]⟩],
      h.WellFormed) ∧
    ∃ q, blameLoop false "f.go".toList
        (splitNL (reportText
          [⟨"abc123 1 1 3".toList, ["author Jane Doe <jane@x.com>".toList],
            ["\tone".toList, "\ttwo".toList, "\tthree".toList]⟩,
           ⟨"def456 4 4 1".toList, ["author Bob <bob@x.com>".toList], ["\tfour".toList]⟩]))
        (initParser emptyTables) = some q ∧
      (([⟨"abc123 1 1 3".toList, ["author Jane Doe <jane@x.com>".toList],
            ["\tone".toList, "\ttwo".toList, "\tthree".toList]⟩,
           ⟨"def456 4 4 1".toList, ["author Bob <bob@x.com>".toList], ["\tfour".toList]⟩] :
          List Hunk) ≠ [] →
        processFile false "f.go".toList (reportText
          [⟨"abc123 1 1 3".toList, ["author Jane Doe <jane@x.com>".toList],
            ["\tone".toList, "\ttwo".toList, "\tthree".toList]⟩,
           ⟨"def456 4 4 1".toList, ["author Bob <bob@x.com>".toList], ["\tfour".toList]⟩])
          none emptyTables = some q.tables) ∧
      creditedLines q.log = (contentLineCount (splitNL (reportText
          [⟨"abc123 1 1 3".toList, ["author Jane Doe <jane@x.com>".toList],
            ["\tone".toList, "\ttwo".toList, "\tthree".toList]⟩,
           ⟨"def456 4 4 1".toList, ["author Bob <bob@x.com>".toList], ["\tfour".toList]⟩])) : Int) :=
  ⟨by decide, blame_line_conservation false "f.go".toList emptyTables _ none (by decide)⟩

theorem same_commit_same_author_witness :
    ∃ q l0 cr1 l1 cr2 l2,
      blameLoop false "f.go".toList
        (splitNL (reportText ([] ++
          (⟨"abc123 1 1 1".toList, ["author Jane".toList], ["\tone".toList]⟩ : Hunk) ::
          ([⟨"def456 2 2 2".toList, ["author Bob".toList], ["\ttwo".toList, "\tthree".toList]⟩] ++
            ⟨"abc123 4 4 1".toList, [], ["\tfour".toList]⟩ :: []))))
        (initParser emptyTables) = some q ∧
      q.log = l0 ++ cr1 :: (l1 ++ cr2 :: l2) ∧
      l0.length = ([] : List Hunk).length + 1 ∧
      l1.length = [(⟨"def456 2 2 2".toList, ["author Bob".toList],
        ["\ttwo".toList, "\tthree".toList]⟩ : Hunk)].length ∧
      cr1.commit = Hunk.commit ⟨"abc123 1 1 1".toList, ["author Jane".toList], ["\tone".toList]⟩ ∧
      cr2.commit = Hunk.commit ⟨"abc123 4 4 1".toList, [], ["\tfour".toList]⟩ ∧
      cr1.author = cr2.author ∧
      ∀ cr ∈ q.log, cr.author = cr.stored :=
  same_commit_same_author false "f.go".toList emptyTables []
    [⟨"def456 2 2 2".toList, ["author Bob".toList], ["\ttwo".toList, "\tthree".toList]⟩] []
    ⟨"abc123 1 1 1".toList, ["author Jane".toList], ["\tone".toList]⟩
    ⟨"abc123 4 4 1".toList, [], ["\tfour".toList]⟩ (by decide) (by decide) (by decide)

/-- Scenario B: two hunks of commit `abc123`, the second with a header
without a line count and without metadata, are both credited to the author of
the first. -/
theorem scenarioB_same_author :
    (blameLoop false "f.go".toList
        (splitNL "abc123 1 1 1\nauthor Jane\n\tone\nabc123 2 2\n\ttwo\n".toList)
        (initParser emptyTables)).map
          (fun q => q.log.map (fun cr => (cr.author, cr.commit, cr.lines)))
      = some [([], [], 0), ("Jane".toList, "abc123".toList, 1),
          ("Jane".toList, "abc123".toList, 1)] := by
  decide

theorem single_hunk_record_witness :
    isToken "abc123".toList ∧ "Jane Doe <jane@x.com>".toList ≠ [] ∧
    ∃ t, processFile false "f.go".toList
        (reportText [⟨"abc123".toList ++ " 1 1 ".toList ++
            itoa (["\tone".toList, "\ttwo".toList, "\tthree".toList].length : Nat),
          [] ++ ("author ".toList ++ "Jane Doe <jane@x.com>".toList) ::
            ["author-mail <jane@x.com>".toList],
          ["\tone".toList, "\ttwo".toList, "\tthree".toList]⟩]) none emptyTables = some t ∧
      delete t.stats [] = [("Jane Doe <jane@x.com>".toList,
        ⟨(["\tone".toList, "\ttwo".toList, "\tthree".toList].length : Nat), 1, 1⟩)] :=
  ⟨by decide, by decide,
    single_hunk_record "abc123".toList "Jane Doe <jane@x.com>".toList "f.go".toList []
      ["author-mail <jane@x.com>".toList] ["\tone".toList, "\ttwo".toList, "\tthree".toList] none
      (by decide) (by decide) (by decide) (by decide) (by decide) (by decide) (by decide)
      (by decide) (by decide)⟩

theorem empty_file_record_witness :
    isToken "def456".toList ∧
    processFile false "README".toList []
        (some ("commit ".toList ++ "def456".toList ++ '\n' ::
          ("Author: ".toList ++ "Bob".toList ++ " <".toList ++ "bob@x.com".toList ++ ">".toList
            ++ "\nDate:   Thu Jan 1 00:00:00 1970 +0000\n".toList))) emptyTables
      = some ⟨[("Bob".toList, ⟨0, 1, 1⟩)], [("Bob".toList, ["def456".toList])], []⟩ :=
  ⟨by decide,
    empty_file_record false "README".toList "def456".toList "Bob".toList "bob@x.com".toList
      "\nDate:   Thu Jan 1 00:00:00 1970 +0000\n".toList (by decide) (by decide) (by decide)
      (Or.inr ⟨_, rfl⟩)⟩

theorem header_without_count_reuses_running_witness :
    ∃ q cr, lineStep false "f.go".toList false "a 4 4".toList
        { linesUntilHeader := 0, commitAuthor := "B".toList, commitHash := "b".toList,
          successiveLines := 1, commitAuthors := [("a".toList, "A".toList), ("b".toList, "B".toList)],
          tables := emptyTables, log := [] } = some q ∧
      q.commitHash = (fields "a 4 4".toList).headD [] ∧
      q.log = [] ++ [cr] ∧
      q.successiveLines = cr.lines ∧ q.linesUntilHeader = cr.lines ∧
      cr.lines = 1 :=
  header_without_count_reuses_running false "f.go".toList "a 4 4".toList
    { linesUntilHeader := 0, commitAuthor := "B".toList, commitHash := "b".toList,
      successiveLines := 1, commitAuthors := [("a".toList, "A".toList), ("b".toList, "B".toList)],
      tables := emptyTables, log := [] } rfl (by decide) (by decide) (by decide)

/-! ## The insertion sort of `sort.Slice` -/

theorem insertBack_perm {α : Type} (less : α → α → Bool) (x : α) (acc : List α) :
    (insertBack less x acc).Perm (x :: acc) := by
  induction acc with
  | nil => exact List.Perm.refl _
  | cons y ys ih =>
    simp only [insertBack]
    split
    · exact (List.Perm.cons y ih).trans (List.Perm.swap x y ys)
    · exact List.Perm.refl _

theorem insertionLoop_perm {α : Type} (less : α → α → Bool) (acc l : List α) :
    (insertionLoop less acc l).Perm (l ++ acc) := by
  induction l generalizing acc with
  | nil => exact List.Perm.refl _
  | cons x xs ih =>
    simp only [insertionLoop]
    refine (ih _).trans ?_
    refine (List.Perm.append_left xs (insertBack_perm less x acc)).trans ?_
    exact List.perm_middle

theorem sortSlice_perm {α : Type} (less : α → α → Bool) (l : List α) :
    (sortSlice less l).Perm l := by
  unfold sortSlice
  refine (List.reverse_perm _).trans ?_
  simpa using insertionLoop_perm less [] l

/-- The sorted part stays sorted when an element is inserted, for a comparator
that is total, asymmetric and transitive on the elements at hand. -/
theorem insertBack_sorted {α : Type} (less : α → α → Bool) (x : α) (acc : List α)
    (hasym : ∀ a ∈ x :: acc, ∀ b ∈ x :: acc, a ≠ b → less a b = !less b a)
    (htrans : ∀ a ∈ x :: acc, ∀ b ∈ x :: acc, ∀ c ∈ x :: acc,
      less a b = true → less b c = true → less a c = true)
    (hx : x ∉ acc) (hnd : acc.Nodup)
    (hs : acc.Pairwise (fun a b => less a b = false)) :
    (insertBack less x acc).Pairwise (fun a b => less a b = false) := by
  induction acc with
  | nil => simp [insertBack]
  | cons y ys ih =>
    have hxy : x ≠ y := fun e => hx (by rw [e]; exact List.mem_cons_self _ _)
    have hxys : x ∉ ys := fun e => hx (List.mem_cons_of_mem _ e)
    rw [List.pairwise_cons] at hs
    rw [List.nodup_cons] at hnd
    simp only [insertBack]
    split
    · rename_i hlt
      rw [List.pairwise_cons]
      constructor
      · intro z hz
        have hz2 := (insertBack_perm less x ys).subset hz
        rw [List.mem_cons] at hz2
        rcases hz2 with hz2 | hz2
        · rw [hz2]
          have := hasym y (by simp) x (by simp) (fun e => hxy e.symm)
          rw [this, hlt]; rfl
        · exact hs.1 z hz2
      · refine ih ?_ ?_ hxys hnd.2 hs.2
        · intro a ha b hb hab
          exact hasym a (by simp at ha ⊢; tauto) b (by simp at hb ⊢; tauto) hab
        · intro a ha b hb c hc
          exact htrans a (by simp at ha ⊢; tauto) b (by simp at hb ⊢; tauto)
            c (by simp at hc ⊢; tauto)
    · rename_i hlt
      have hlt : less x y = false := by simpa using hlt
      rw [List.pairwise_cons]
      refine ⟨?_, List.pairwise_cons.mpr hs⟩
      intro z hz
      rw [List.mem_cons] at hz
      rcases hz with hz | hz
      · rw [hz]; exact hlt
      · have hyz : less y z = false := hs.1 z hz
        have hzy : y ≠ z := fun e => hnd.1 (by rw [e]; exact hz)
        have hxz : x ≠ z := fun e => hxys (by rw [e]; exact hz)
        have h1 : less y x = true := by
          have := hasym y (by simp) x (by simp) (fun e => hxy e.symm)
          rw [this, hlt]; rfl
        have h2 : less z y = true := by
          have := hasym z (by simp [hz]) y (by simp) (fun e => hzy e.symm)
          rw [this, hyz]; rfl
        have h3 := htrans z (by simp [hz]) y (by simp) x (by simp) h2 h1
        have := hasym x (by simp) z (by simp [hz]) hxz
        rw [this, h3]; rfl

theorem insertionLoop_sorted {α : Type} (less : α → α → Bool) (acc l : List α)
    (hasym : ∀ a ∈ l ++ acc, ∀ b ∈ l ++ acc, a ≠ b → less a b = !less b a)
    (htrans : ∀ a ∈ l ++ acc, ∀ b ∈ l ++ acc, ∀ c ∈ l ++ acc,
      less a b = true → less b c = true → less a c = true)
    (hnd : (l ++ acc).Nodup)
    (hs : acc.Pairwise (fun a b => less a b = false)) :
    (insertionLoop less acc l).Pairwise (fun a b => less a b = false) := by
  induction l generalizing acc with
  | nil => exact hs
  | cons x xs ih =>
    simp only [insertionLoop]
    have hperm : (xs ++ insertBack less x acc).Perm (x :: xs ++ acc) :=
      (List.Perm.append_left xs (insertBack_perm less x acc)).trans List.perm_middle
    have hmem : ∀ a, a ∈ xs ++ insertBack less x acc → a ∈ x :: xs ++ acc :=
      fun a ha => hperm.subset ha
    have hsub : ∀ a, a ∈ x :: acc → a ∈ x :: xs ++ acc := by
      intro a ha
      simp only [List.mem_cons, List.cons_append, List.mem_append] at ha ⊢
      tauto
    have hnd2 := hnd
    simp only [List.cons_append, List.nodup_cons, List.mem_append, not_or] at hnd2
    refine ih _ ?_ ?_ (hperm.nodup_iff.mpr hnd) ?_
    · intro a ha b hb hab
      exact hasym a (hmem a ha) b (hmem b hb) hab
    · intro a ha b hb c hc
      exact htrans a (hmem a ha) b (hmem b hb) c (hmem c hc)
    · refine insertBack_sorted less x acc ?_ ?_ hnd2.1.2 (List.Nodup.of_append_right hnd2.2) hs
      · intro a ha b hb hab
        exact hasym a (hsub a ha) b (hsub b hb) hab
      · intro a ha b hb c hc
        exact htrans a (hsub a ha) b (hsub b hb) c (hsub c hc)

/-- The insertion sort meets the contract of `sort.Slice`. -/
theorem sortSlice_isSortOf {α : Type} (less : α → α → Bool) (l : List α)
    (hasym : ∀ a ∈ l, ∀ b ∈ l, a ≠ b → less a b = !less b a)
    (htrans : ∀ a ∈ l, ∀ b ∈ l, ∀ c ∈ l, less a b = true → less b c = true → less a c = true)
    (hnd : l.Nodup) : IsSortOf less l (sortSlice less l) := by
  refine ⟨sortSlice_perm less l, ?_⟩
  unfold sortSlice
  rw [List.pairwise_reverse]
  exact insertionLoop_sorted less [] l (by simpa using hasym) (by simpa using htrans)
    (by simpa using hnd) List.Pairwise.nil

/-- Two results that meet the contract of `sort.Slice` for the same elements
are equal when the comparator is asymmetric on them. -/
theorem isSortOf_unique {α : Type} (less : α → α → Bool) (l out1 out2 : List α)
    (hasym : ∀ a ∈ l, ∀ b ∈ l, a ≠ b → less a b = !less b a)
    (h1 : IsSortOf less l out1) (h2 : IsSortOf less l out2) : out1 = out2 := by
  obtain ⟨p1, s1⟩ := h1
  obtain ⟨p2, s2⟩ := h2
  have hperm : out1.Perm out2 := p1.trans p2.symm
  have hsub : ∀ a ∈ out1, a ∈ l := fun a ha => p1.subset ha
  clear p1 p2
  induction out1 generalizing out2 with
  | nil => exact (List.Perm.nil_eq hperm)
  | cons x xs ih =>
    cases out2 with
    | nil => exact absurd hperm.symm (List.Perm.nil_eq · |> fun e => by cases e)
    | cons y ys =>
      rw [List.pairwise_cons] at s1 s2
      have hxy : x = y := by
        by_contra hne
        have hx : x ∈ ys := by
          have := hperm.subset (List.mem_cons_self x xs)
          rw [List.mem_cons] at this
          exact this.resolve_left hne
        have hy : y ∈ xs := by
          have := hperm.symm.subset (List.mem_cons_self y ys)
          rw [List.mem_cons] at this
          exact this.resolve_left (fun e => hne e.symm)
        have a1 : less y x = false := s1.1 y hy
        have a2 : less x y = false := s2.1 x hx
        have := hasym x (hsub x (List.mem_cons_self _ _)) y
          (hsub y (List.mem_cons_of_mem _ hy)) hne
        rw [a1, a2] at this
        exact absurd this (by decide)
      subst hxy
      have := ih ys s1.2 s2.2 (List.Perm.cons_inv hperm)
        (fun a ha => hsub a (List.mem_cons_of_mem _ ha))
      rw [this]

/-! ## The ranked output -/

theorem less_self (sk : List Str) (a : List Str) : less sk a a = true := by
  simp [less, strLt_irrefl]

theorem names_ne_of_nodup (rows : List (List Str)) (h : (rowNames rows).Nodup)
    (a : List Str) (ha : a ∈ rows) (b : List Str) (hb : b ∈ rows) (hab : a ≠ b) :
    cell a 0 ≠ cell b 0 :=
  fun e => hab (List.inj_on_of_nodup_map h ha hb e)

theorem less_asymm_on (sk : List Str) (rows : List (List Str)) (h : (rowNames rows).Nodup) :
    ∀ a ∈ rows, ∀ b ∈ rows, a ≠ b → less sk a b = !less sk b a :=
  fun a ha b hb hab => less_exclusive sk a b (names_ne_of_nodup rows h a ha b hb hab)

theorem less_trans_on (sk : List Str) (rows : List (List Str)) (h : (rowNames rows).Nodup) :
    ∀ a ∈ rows, ∀ b ∈ rows, ∀ c ∈ rows,
      less sk a b = true → less sk b c = true → less sk a c = true := by
  intro a ha b hb c hc h1 h2
  by_cases hab : a = b
  · rw [hab]; exact h2
  · by_cases hbc : b = c
    · rw [← hbc]; exact h1
    · by_cases hac : a = c
      · rw [hac]; exact less_self sk c
      · exact less_trans sk a b c (names_ne_of_nodup rows h a ha b hb hab)
          (names_ne_of_nodup rows h b hb c hc hbc) (names_ne_of_nodup rows h a ha c hc hac) h1 h2

theorem isSortOf_of_perm {α : Type} (less : α → α → Bool) (l1 l2 out : List α)
    (hperm : l1.Perm l2) (h : IsSortOf less l2 out) : IsSortOf less l1 out :=
  ⟨h.1.trans hperm.symm, h.2⟩

/-- C11: for every order-by key and two orderings of the same rows with
pairwise different names, the insertion sort of `sort.Slice` with the
comparator of `gitfame` meets the contract of `sort.Slice` and gives the same
sequence for both orderings, and so does every result that meets that
contract. -/
theorem ranked_order_independent (k : OrderKey) (rows1 rows2 : List (List Str))
    (hperm : rows1.Perm rows2) (hnames : (rowNames rows1).Nodup) :
    ∃ sortKeys, parseArgs k.flag = some sortKeys ∧
      IsSortOf (less sortKeys) rows1 (sortSlice (less sortKeys) rows1) ∧
      sortSlice (less sortKeys) rows1 = sortSlice (less sortKeys) rows2 ∧
      ∀ out1 out2, IsSortOf (less sortKeys) rows1 out1 → IsSortOf (less sortKeys) rows2 out2 →
        out1 = out2 := by
  refine ⟨_, parseArgs_flag k, ?_⟩
  generalize k.flag :: (specTieBreak k).map OrderKey.flag = sk
  have hnames2 : (rowNames rows2).Nodup := by
    unfold rowNames at hnames ⊢
    exact (hperm.map _).nodup_iff.mp hnames
  have hnd1 : rows1.Nodup := List.Nodup.of_map _ hnames
  have hnd2 : rows2.Nodup := List.Nodup.of_map _ hnames2
  have hs1 := sortSlice_isSortOf (less sk) rows1 (less_asymm_on sk rows1 hnames)
    (less_trans_on sk rows1 hnames) hnd1
  have hs2 := sortSlice_isSortOf (less sk) rows2 (less_asymm_on sk rows2 hnames2)
    (less_trans_on sk rows2 hnames2) hnd2
  refine ⟨hs1, ?_, ?_⟩
  · exact isSortOf_unique (less sk) rows1 _ _ (less_asymm_on sk rows1 hnames) hs1
      (isSortOf_of_perm (less sk) rows1 rows2 _ hperm hs2)
  · intro out1 out2 h1 h2
    exact isSortOf_unique (less sk) rows1 _ _ (less_asymm_on sk rows1 hnames) h1
      (isSortOf_of_perm (less sk) rows1 rows2 _ hperm h2)

theorem outputRows_name_ne_nil (t : Tables) (row : List Str) (h : row ∈ outputRows t) :
    cell row 0 ≠ [] := by
  unfold outputRows at h
  rw [List.mem_map] at h
  obtain ⟨kv, hkv, rfl⟩ := h
  unfold delete at hkv
  rw [List.mem_filter] at hkv
  have := hkv.2
  simp only [decide_eq_true_eq] at this
  exact this

/-- C16: for every state of the tables and every order in which the map
`stats` is read after `delete(stats, "")`, no row of the sorted output has the
empty string as its name; this holds for the insertion sort and for every
result that meets the contract of `sort.Slice`. -/
theorem ranked_no_empty_name (sortKeys : List Str) (t : Tables) (rows : List (List Str))
    (hrows : rows.Perm (outputRows t)) :
    (∀ row ∈ sortSlice (less sortKeys) rows, cell row 0 ≠ []) ∧
    (∀ out, IsSortOf (less sortKeys) rows out → ∀ row ∈ out, cell row 0 ≠ []) := by
  constructor
  · intro row hrow
    exact outputRows_name_ne_nil t row
      (hrows.subset ((sortSlice_perm (less sortKeys) rows).subset hrow))
  · intro out hout row hrow
    exact outputRows_name_ne_nil t row (hrows.subset (hout.1.subset hrow))

/-- C17, counterexample: with `--order-by commits` the comparator does not put
B (lines 5, commits 2, files 3) before A (lines 10, commits 2, files 1), and
the sorted output is not B, A for either order of the two rows. -/
theorem scenarioD_counterexample :
    parseArgs OrderKey.commits.flag
      = some ["commits".toList, "lines".toList, "files".toList] ∧
    less ["commits".toList, "lines".toList, "files".toList]
      (mkRow "B".toList ⟨5, 2, 3⟩) (mkRow "A".toList ⟨10, 2, 1⟩) = false ∧
    sortSlice (less ["commits".toList, "lines".toList, "files".toList])
        [mkRow "A".toList ⟨10, 2, 1⟩, mkRow "B".toList ⟨5, 2, 3⟩]
      ≠ [mkRow "B".toList ⟨5, 2, 3⟩, mkRow "A".toList ⟨10, 2, 1⟩] ∧
    sortSlice (less ["commits".toList, "lines".toList, "files".toList])
        [mkRow "B".toList ⟨5, 2, 3⟩, mkRow "A".toList ⟨10, 2, 1⟩]
      ≠ [mkRow "B".toList ⟨5, 2, 3⟩, mkRow "A".toList ⟨10, 2, 1⟩] := by
  decide

/-- C17, amended: with `--order-by commits`, for A (lines 10, commits 2,
files 1) and B (lines 5, commits 2, files 3) the sorted output places A before
B, for either order of the two rows: the tie on commits is broken by the larger
lines. -/
theorem scenarioD_ranks_A_first :
    sortSlice (less ["commits".toList, "lines".toList, "files".toList])
        [mkRow "A".toList ⟨10, 2, 1⟩, mkRow "B".toList ⟨5, 2, 3⟩]
      = [mkRow "A".toList ⟨10, 2, 1⟩, mkRow "B".toList ⟨5, 2, 3⟩] ∧
    sortSlice (less ["commits".toList, "lines".toList, "files".toList])
        [mkRow "B".toList ⟨5, 2, 3⟩, mkRow "A".toList ⟨10, 2, 1⟩]
      = [mkRow "A".toList ⟨10, 2, 1⟩, mkRow "B".toList ⟨5, 2, 3⟩] := by
  decide

theorem ranked_order_independent_witness :
    ([mkRow "A".toList ⟨10, 2, 1⟩, mkRow "B".toList ⟨5, 2, 3⟩, mkRow "C".toList ⟨5, 2, 3⟩].Perm
      [mkRow "C".toList ⟨5, 2, 3⟩, mkRow "B".toList ⟨5, 2, 3⟩, mkRow "A".toList ⟨10, 2, 1⟩]) ∧
    ∃ sortKeys, parseArgs OrderKey.files.flag = some sortKeys ∧
      IsSortOf (less sortKeys)
        [mkRow "A".toList ⟨10, 2, 1⟩, mkRow "B".toList ⟨5, 2, 3⟩, mkRow "C".toList ⟨5, 2, 3⟩]
        (sortSlice (less sortKeys)
          [mkRow "A".toList ⟨10, 2, 1⟩, mkRow "B".toList ⟨5, 2, 3⟩, mkRow "C".toList ⟨5, 2, 3⟩]) ∧
      sortSlice (less sortKeys)
          [mkRow "A".toList ⟨10, 2, 1⟩, mkRow "B".toList ⟨5, 2, 3⟩, mkRow "C".toList ⟨5, 2, 3⟩]
        = sortSlice (less sortKeys)
          [mkRow "C".toList ⟨5, 2, 3⟩, mkRow "B".toList ⟨5, 2, 3⟩, mkRow "A".toList ⟨10, 2, 1⟩] ∧
      ∀ out1 out2,
        IsSortOf (less sortKeys)
          [mkRow "A".toList ⟨10, 2, 1⟩, mkRow "B".toList ⟨5, 2, 3⟩, mkRow "C".toList ⟨5, 2, 3⟩]
          out1 →
        IsSortOf (less sortKeys)
          [mkRow "C".toList ⟨5, 2, 3⟩, mkRow "B".toList ⟨5, 2, 3⟩, mkRow "A".toList ⟨10, 2, 1⟩]
          out2 →
        out1 = out2 :=
  ⟨by decide,
    ranked_order_independent OrderKey.files
      [mkRow "A".toList ⟨10, 2, 1⟩, mkRow "B".toList ⟨5, 2, 3⟩, mkRow "C".toList ⟨5, 2, 3⟩]
      [mkRow "C".toList ⟨5, 2, 3⟩, mkRow "B".toList ⟨5, 2, 3⟩, mkRow "A".toList ⟨10, 2, 1⟩]
      (by decide) (by decide)⟩

theorem ranked_no_empty_name_witness :
    (outputRows ⟨[([], ⟨0, 1, 1⟩), ("Bob".toList, ⟨0, 1, 1⟩), ("Al".toList, ⟨3, 1, 1⟩)],
        [], []⟩).Perm
      (outputRows ⟨[([], ⟨0, 1, 1⟩), ("Bob".toList, ⟨0, 1, 1⟩), ("Al".toList, ⟨3, 1, 1⟩)],
        [], []⟩) ∧
    (∀ row ∈ sortSlice (less baseSortKeys)
        (outputRows ⟨[([], ⟨0, 1, 1⟩), ("Bob".toList, ⟨0, 1, 1⟩), ("Al".toList, ⟨3, 1, 1⟩)],
          [], []⟩), cell row 0 ≠ []) ∧
    (∀ out, IsSortOf (less baseSortKeys)
        (outputRows ⟨[([], ⟨0, 1, 1⟩), ("Bob".toList, ⟨0, 1, 1⟩), ("Al".toList, ⟨3, 1, 1⟩)],
          [], []⟩) out → ∀ row ∈ out, cell row 0 ≠ []) :=
  ⟨List.Perm.refl _,
    ranked_no_empty_name baseSortKeys
      ⟨[([], ⟨0, 1, 1⟩), ("Bob".toList, ⟨0, 1, 1⟩), ("Al".toList, ⟨3, 1, 1⟩)], [], []⟩ _
      (List.Perm.refl _)⟩

/-! ## The `--use-committer` flag in `processFile` -/

theorem fields_committer_line (v : Str) :
    fields ("committer ".toList ++ v) = "committer".toList :: fields v :=
  fields_token_space "committer".toList (by decide) ' ' (by decide) v

theorem isIdentityLine_author_line (uc : Bool) (v : Str) :
    isIdentityLine uc ("author ".toList ++ v) = !uc := by
  unfold isIdentityLine
  rw [fields_author_line]
  cases uc <;> rfl

theorem isIdentityLine_committer_line (uc : Bool) (v : Str) :
    isIdentityLine uc ("committer ".toList ++ v) = uc := by
  unfold isIdentityLine
  rw [fields_committer_line]
  cases uc <;> rfl

/-- The identity after metadata lines whose last identity line is `idline`. -/
theorem foldl_applyMeta_last (uc : Bool) (l1 l2 : List Str) (idline : Str) (p : Parser)
    (hid : isIdentityLine uc idline = true)
    (hl2 : ∀ m ∈ l2, isIdentityLine uc m = false) :
    ((l1 ++ idline :: l2).foldl (fun q m => applyMeta uc m q) p).commitAuthor
      = cutAfterSpace idline := by
  rw [List.foldl_append, List.foldl_cons, foldl_applyMeta_of_not_identity uc l2 _ hl2]
  simp [applyMeta, hid]

theorem afterHunk_identity (uc : Bool) (fp : Str) (h : IdHunk) (p : Parser)
    (hplain : ∀ m ∈ h.otherLines, isIdentityLine uc m = false) :
    (afterHunk uc fp h.toHunk p).commitAuthor = if uc then h.committer else h.author := by
  have hb : ∀ m ∈ h.before, isIdentityLine uc m = false :=
    fun m hm => hplain m (by simp [IdHunk.otherLines, hm])
  have hbt : ∀ m ∈ h.between, isIdentityLine uc m = false :=
    fun m hm => hplain m (by simp [IdHunk.otherLines, hm])
  have ha : ∀ m ∈ h.after, isIdentityLine uc m = false :=
    fun m hm => hplain m (by simp [IdHunk.otherLines, hm])
  unfold afterHunk
  show ((h.before ++ ("author ".toList ++ h.author) ::
      (h.between ++ ("committer ".toList ++ h.committer) :: h.after)).foldl
        (fun q m => applyMeta uc m q) _).commitAuthor = _
  cases uc with
  | false =>
    rw [foldl_applyMeta_last false h.before _ _ _ (isIdentityLine_author_line false _)]
    · rfl
    · intro m hm
      rw [List.mem_append, List.mem_cons] at hm
      rcases hm with hm | hm | hm
      · exact hbt m hm
      · rw [hm]; exact isIdentityLine_committer_line false _
      · exact ha m hm
  | true =>
    rw [show h.before ++ ("author ".toList ++ h.author) ::
        (h.between ++ ("committer ".toList ++ h.committer) :: h.after)
        = (h.before ++ ("author ".toList ++ h.author) :: h.between) ++
          ("committer ".toList ++ h.committer) :: h.after by simp]
    rw [foldl_applyMeta_last true _ _ _ _ (isIdentityLine_committer_line true _) ha]
    rfl

theorem hunkCredits_identity (uc : Bool) (fp : Str) (hs : List IdHunk) (p : Parser)
    (hplain : ∀ h ∈ hs, ∀ m ∈ h.otherLines, isIdentityLine uc m = false) :
    (hunkCredits uc fp (hs.map IdHunk.toHunk) p).map (fun cr => (cr.author, cr.commit, cr.lines))
      = hs.map (IdHunk.expected uc) := by
  induction hs generalizing p with
  | nil => rfl
  | cons h hs ih =>
    simp only [List.map_cons, hunkCredits]
    rw [ih _ (fun x hx => hplain x (List.mem_cons_of_mem _ hx))]
    congr 1
    simp only [creditOf, IdHunk.expected, afterHunk_commitHash, afterHunk_successive,
      afterHunk_identity uc fp h p (hplain h (List.mem_cons_self _ _))]
    rfl

/-- C12: for every report in the format of the parser whose hunks each carry
an `author A` line and a `committer C` line (and no other identity line), the
loop of `processFile` returns and credits each hunk, with its commit and its
line count, to `C` under `--use-committer` and to `A` otherwise. -/
theorem credits_follow_useCommitter (uc : Bool) (fp : Str) (t : Tables) (hs : List IdHunk)
    (hwf : ∀ h ∈ hs, h.toHunk.WellFormed)
    (hplain : ∀ h ∈ hs, ∀ m ∈ h.otherLines, isIdentityLine uc m = false) :
    ∃ q, blameLoop uc fp (splitNL (reportText (hs.map IdHunk.toHunk))) (initParser t) = some q ∧
      q.log.map (fun cr => (cr.author, cr.commit, cr.lines))
        = ([], [], 0) :: hs.map (IdHunk.expected uc) := by
  have hwf2 : ∀ h ∈ hs.map IdHunk.toHunk, h.WellFormed := by
    intro h hh
    rw [List.mem_map] at hh
    obtain ⟨x, hx, rfl⟩ := hh
    exact hwf x hx
  have hid : ∀ h ∈ hs.map IdHunk.toHunk, isIdentityLine uc h.header = false := by
    intro h hh
    rw [List.mem_map] at hh
    obtain ⟨x, hx, rfl⟩ := hh
    exact hplain x hx x.header (List.mem_cons_self _ _)
  have hrun := blameLoop_report uc fp _ (initParser t) hwf2 rfl
  rw [← splitNL_reportText _ hwf2] at hrun
  refine ⟨_, hrun, ?_⟩
  rw [log_credited_afterHunks uc fp _ _ hid]
  simp only [initParser, List.nil_append, List.map_cons, hunkCredits_identity uc fp hs _ hplain]
  rfl

theorem credits_follow_useCommitter_witness :
    (∀ h ∈ [(⟨"abc123 1 1 2".toList, [], "Jane <j@x>".toList, ["author-time 1".toList],
        "Carl <c@x>".toList, ["summary s".toList], ["\tone".toList, "\ttwo".toList]⟩ : IdHunk)],
      h.toHunk.WellFormed) ∧
    ∃ q, blameLoop true "f.go".toList
        (splitNL (reportText ([(⟨"abc123 1 1 2".toList, [], "Jane <j@x>".toList,
          ["author-time 1".toList], "Carl <c@x>".toList, ["summary s".toList],
          ["\tone".toList, "\ttwo".toList]⟩ : IdHunk)].map IdHunk.toHunk)))
        (initParser emptyTables) = some q ∧
      q.log.map (fun cr => (cr.author, cr.commit, cr.lines))
        = ([], [], 0) :: [(⟨"abc123 1 1 2".toList, [], "Jane <j@x>".toList,
          ["author-time 1".toList], "Carl <c@x>".toList, ["summary s".toList],
          ["\tone".toList, "\ttwo".toList]⟩ : IdHunk)].map (IdHunk.expected true) :=
  ⟨by decide,
    credits_follow_useCommitter true "f.go".toList emptyTables
      [⟨"abc123 1 1 2".toList, [], "Jane <j@x>".toList, ["author-time 1".toList],
        "Carl <c@x>".toList, ["summary s".toList], ["\tone".toList, "\ttwo".toList]⟩]
      (by decide) (by decide)⟩

/-! ## The identity and the failures of `processEmptyFile` -/

/-- The call of `processEmptyFile` on a history text that begins with the
line `commit h` and a line `Author: name tok`. -/
theorem processEmptyFile_identity (h name tok tail : Str) (t : Tables)
    (hh : isToken h) (htok : isToken tok) (hname : '\n' ∉ name)
    (htail : tail = [] ∨ ∃ r, tail = '\n' :: r) :
    processEmptyFile
        (some ("commit ".toList ++ h ++ '\n' :: ("Author: ".toList ++ (name ++ ' ' :: tok) ++ tail)))
        t
      = some (addCommit (bumpFiles t name) name h) := by
  have hline1 : "Author: ".toList ++ (name ++ ' ' :: tok)
      = ("Author: ".toList ++ name) ++ ' ' :: tok := by
    simp
  have hnl0 : '\n' ∉ "commit ".toList ++ h := by
    intro hm
    rw [List.mem_append] at hm
    rcases hm with hm | hm
    · exact absurd hm (by decide)
    · exact token_no_newline h hh hm
  have hnl1 : '\n' ∉ ("Author: ".toList ++ name) ++ ' ' :: tok := by
    intro hm
    rw [List.mem_append] at hm
    rcases hm with hm | hm
    · rw [List.mem_append] at hm
      rcases hm with hm | hm
      · exact absurd hm (by decide)
      · exact hname hm
    · rw [List.mem_cons] at hm
      rcases hm with hm | hm
      · exact absurd hm (by decide)
      · exact token_no_newline _ htok hm
  have hsplit : ∃ more, splitNL ("commit ".toList ++ h ++ '\n' ::
      ("Author: ".toList ++ (name ++ ' ' :: tok) ++ tail))
      = ("commit ".toList ++ h) :: (("Author: ".toList ++ name) ++ ' ' :: tok) :: more := by
    rw [splitNL_line _ _ hnl0, hline1]
    rcases htail with ht | ⟨r, ht⟩
    · subst ht
      rw [List.append_nil, splitNL_no_newline _ hnl1]
      exact ⟨[], rfl⟩
    · subst ht
      rw [splitNL_line _ _ hnl1]
      exact ⟨splitNL r, rfl⟩
  obtain ⟨more, hsplit⟩ := hsplit
  have hf0 : fields ("commit ".toList ++ h) = ["commit".toList, h] := by
    show fields ("commit".toList ++ ' ' :: h) = _
    rw [fields_token_space "commit".toList (by decide) ' ' (by decide), fields_token h hh]
  have hf1 : fields (("Author: ".toList ++ name) ++ ' ' :: tok)
      = fields ("Author: ".toList ++ name) ++ [tok] :=
    fields_append_space_token _ ' ' (by decide) _ htok
  have hcut : cutSuffix (cutPrefix (("Author: ".toList ++ name) ++ ' ' :: tok)
      "Author: ".toList) (' ' :: tok) = name := by
    rw [List.append_assoc, cutPrefix_append, cutSuffix_append]
  unfold processEmptyFile
  simp only [hsplit, List.getD_cons_zero, hf0, hf1, List.getLastD_concat, hcut]
  have hne : ¬ (fields ("Author: ".toList ++ name) ++ [tok] = []) := by simp
  rw [if_neg hne]

/-- C13: evaluation of the code under `--use-committer` on an empty file whose
history entry is authored by Alice: the text of `git log` carries no committer
line and `processEmptyFile` credits the author Alice; the flag does not change
the result of `processFile` on an empty blame report. -/
theorem emptyFile_ignores_useCommitter :
    processFile true "README".toList []
        (some ("commit def456\nAuthor: Alice <alice@x.com>\n" ++
          "Date:   Thu Jan 1 00:00:00 1970 +0000\n\n    add README\n").toList) emptyTables
      = some ⟨[("Alice".toList, ⟨0, 1, 1⟩)], [("Alice".toList, ["def456".toList])], []⟩ ∧
    ∀ (fp : Str) (logOut : Option Str) (t : Tables),
      processFile true fp [] logOut t = processFile false fp [] logOut t :=
  ⟨by decide, fun _ _ _ => rfl⟩

/-- C15: evaluation of the code on an empty history text: `processEmptyFile`
reads field 1 of the only (empty) line and the run aborts with an index out of
range, also through `processFile`; only a failed lookup leaves the tables
unchanged and returns. -/
theorem emptyFile_empty_history_aborts (fp : Str) (uc : Bool) (t : Tables) :
    processEmptyFile (some []) t = none ∧
    processFile uc fp [] (some []) t = none ∧
    processEmptyFile none t = some t :=
  ⟨rfl, rfl, rfl⟩

/-- C19: for a value `v = name ++ " " ++ tok` with `tok` a word, the blame
path on the line `author v` takes the whole of `v` as the identity of the
commit, the empty-file path on the line `Author: v` credits `name`, and the two
identities differ. -/
theorem identity_paths_differ (fp h name tok tail : Str) (p : Parser) (isLast : Bool)
    (hh : isToken h) (htok : isToken tok) (hname : '\n' ∉ name)
    (htail : tail = [] ∨ ∃ r, tail = '\n' :: r) (hp : p.linesUntilHeader ≠ 0) :
    (∃ q, lineStep false fp isLast ("author ".toList ++ (name ++ ' ' :: tok)) p = some q ∧
      q.commitAuthor = name ++ ' ' :: tok ∧
      authorOf q.commitAuthors q.commitHash = name ++ ' ' :: tok) ∧
    processFile false fp []
        (some ("commit ".toList ++ h ++ '\n' ::
          ("Author: ".toList ++ (name ++ ' ' :: tok) ++ tail))) emptyTables
      = some ⟨[(name, ⟨0, 1, 1⟩)], [(name, [h])], []⟩ ∧
    name ≠ name ++ ' ' :: tok := by
  refine ⟨?_, ?_, ?_⟩
  · have hf : fields ("author ".toList ++ (name ++ ' ' :: tok)) ≠ [] := by
      rw [fields_author_line]; simp
    refine ⟨_, lineStep_meta false fp isLast _ p rfl hf hp, ?_, ?_⟩
    · simp only [applyMeta, isIdentityLine_author, if_true]
      rfl
    · simp only [applyMeta, isIdentityLine_author, if_true, authorOf_insert]
      rfl
  · unfold processFile
    rw [if_pos rfl, processEmptyFile_identity h name tok tail emptyTables hh htok hname htail]
    simp [bumpFiles, addCommit, statOf, commitsOf, emptyTables, lookup, insert]
  · intro e
    have := congrArg List.length e
    simp at this

theorem identity_paths_differ_witness :
    isToken "def456".toList ∧ isToken "<bob@x.com>".toList ∧
    (∃ q, lineStep false "f.go".toList false
        ("author ".toList ++ ("Bob".toList ++ ' ' :: "<bob@x.com>".toList))
        { initParser emptyTables with linesUntilHeader := 1 } = some q ∧
      q.commitAuthor = "Bob".toList ++ ' ' :: "<bob@x.com>".toList ∧
      authorOf q.commitAuthors q.commitHash = "Bob".toList ++ ' ' :: "<bob@x.com>".toList) ∧
    processFile false "f.go".toList []
        (some ("commit ".toList ++ "def456".toList ++ '\n' ::
          ("Author: ".toList ++ ("Bob".toList ++ ' ' :: "<bob@x.com>".toList) ++ [])))
        emptyTables
      = some ⟨[("Bob".toList, ⟨0, 1, 1⟩)], [("Bob".toList, ["def456".toList])], []⟩ ∧
    "Bob".toList ≠ "Bob".toList ++ ' ' :: "<bob@x.com>".toList :=
  ⟨by decide, by decide,
    identity_paths_differ "f.go".toList "def456".toList "Bob".toList "<bob@x.com>".toList []
      { initParser emptyTables with linesUntilHeader := 1 } false
      (by decide) (by decide) (by decide) (Or.inl rfl) (by decide)⟩

/-! ## Reports that are not in the format of the parser -/

/-- C14, counterexample: a report with a header of two fields (`xyz 2`) and a
report with a count field that is not a number (`xyz 2 2 many`) both make
`processFile` return, with the counters of Jane updated, instead of ending
with an error. -/
theorem malformed_header_returns_success :
    processFile false "f.go".toList "abc 1 1 1\nauthor Jane\n\tone\nxyz 2\n\ttwo\n".toList none
        emptyTables
      = some ⟨[([], ⟨1, 2, 1⟩), ("Jane".toList, ⟨1, 1, 1⟩)],
          [([], [[], "xyz".toList]), ("Jane".toList, ["abc".toList])],
          [([], ["f.go".toList]), ("Jane".toList, ["f.go".toList])]⟩ ∧
    processFile false "f.go".toList "abc 1 1 1\nauthor Jane\n\tone\nxyz 2 2 many\n\ttwo\n".toList
        none emptyTables
      = some ⟨[([], ⟨0, 1, 1⟩), ("Jane".toList, ⟨1, 1, 1⟩)],
          [([], [[]]), ("Jane".toList, ["abc".toList])],
          [([], ["f.go".toList]), ("Jane".toList, ["f.go".toList])]⟩ := by
  decide

/-- A line with a first word, or a content line, never stops the loop. -/
theorem lineStep_returns (uc : Bool) (fp : Str) (isLast : Bool) (line : Str) (p : Parser)
    (h : hasTabPrefix line = true ∨ fields line ≠ []) :
    ∃ q, lineStep uc fp isLast line p = some q := by
  unfold lineStep
  by_cases htab : hasTabPrefix line = true
  · rw [if_pos htab]
    exact ⟨_, rfl⟩
  · have hf : fields line ≠ [] := h.resolve_left htab
    rw [if_neg htab, metaStep_eq uc line p hf]
    show ∃ q, creditStep fp isLast (fields line) (applyMeta uc line p) = some q
    unfold creditStep
    by_cases h0 : (applyMeta uc line p).linesUntilHeader = 0
    · rw [if_pos h0]
      cases isLast with
      | true => exact ⟨_, rfl⟩
      | false =>
        cases hw : fields line with
        | nil => exact absurd hw hf
        | cons w ws => exact ⟨_, rfl⟩
    · rw [if_neg h0]
      exact ⟨_, rfl⟩

theorem lineStep_last_returns (uc : Bool) (fp : Str) (p : Parser) :
    ∃ q, lineStep uc fp true [] p = some q := by
  show ∃ q, creditStep fp true (fields []) p = some q
  unfold creditStep
  by_cases h0 : p.linesUntilHeader = 0
  · rw [if_pos h0]
    exact ⟨_, rfl⟩
  · rw [if_neg h0]
    exact ⟨_, rfl⟩

theorem blameSteps_returns (uc : Bool) (fp : Str) (lines : List Str) (p : Parser)
    (h : ∀ l ∈ lines, hasTabPrefix l = true ∨ fields l ≠ []) :
    ∃ q, blameSteps uc fp lines p = some q := by
  induction lines generalizing p with
  | nil => exact ⟨p, rfl⟩
  | cons l ls ih =>
    obtain ⟨m, hm⟩ := lineStep_returns uc fp false l p (h l (List.mem_cons_self _ _))
    obtain ⟨q, hq⟩ := ih m (fun x hx => h x (List.mem_cons_of_mem _ hx))
    exact ⟨q, by simp only [blameSteps, hm, hq]⟩

/-! ## Credited amounts on any report -/

theorem statsLe_refl (t : Tables) : StatsLe t t :=
  fun _ => ⟨le_refl _, le_refl _, le_refl _⟩

theorem statsLe_trans {t u v : Tables} (h1 : StatsLe t u) (h2 : StatsLe u v) : StatsLe t v :=
  fun a => ⟨le_trans (h1 a).1 (h2 a).1, le_trans (h1 a).2.1 (h2 a).2.1,
    le_trans (h1 a).2.2 (h2 a).2.2⟩

theorem statsLe_addLines (t : Tables) (a : Str) (n : Int) (hn : 0 ≤ n) :
    StatsLe t (addLines t a n) := by
  intro b
  rw [statOf_addLines]
  by_cases hab : a = b
  · subst hab
    simp only [if_true]
    exact ⟨by omega, le_refl _, le_refl _⟩
  · simp only [hab, if_false]
    exact ⟨le_refl _, le_refl _, le_refl _⟩

theorem statsLe_addCommit (t : Tables) (a c : Str) : StatsLe t (addCommit t a c) := by
  intro b
  rw [statOf_addCommit]
  by_cases hab : a = b ∧ c ∉ commitsOf t a
  · rw [if_pos hab]
    obtain ⟨rfl, -⟩ := hab
    exact ⟨le_refl _, by show (statOf t a).commits ≤ (statOf t a).commits + 1; omega, le_refl _⟩
  · rw [if_neg hab]
    exact ⟨le_refl _, le_refl _, le_refl _⟩

theorem statsLe_addFile (t : Tables) (a f : Str) : StatsLe t (addFile t a f) := by
  intro b
  rw [statOf_addFile]
  by_cases hab : a = b ∧ f ∉ filesOf t a
  · rw [if_pos hab]
    obtain ⟨rfl, -⟩ := hab
    exact ⟨le_refl _, le_refl _, by show (statOf t a).files ≤ (statOf t a).files + 1; omega⟩
  · rw [if_neg hab]
    exact ⟨le_refl _, le_refl _, le_refl _⟩

theorem statsLe_aggregate (t : Tables) (a c f : Str) (n : Int) (hn : 0 ≤ n) :
    StatsLe t (aggregate t a c f n) :=
  statsLe_trans (statsLe_addLines t a n hn)
    (statsLe_trans (statsLe_addCommit _ a c) (statsLe_addFile _ a f))

theorem metaStep_keeps (uc : Bool) (line : Str) (p m : Parser)
    (h : metaStep uc line (fields line) p = some m) :
    m.linesUntilHeader = p.linesUntilHeader ∧ m.successiveLines = p.successiveLines ∧
    m.tables = p.tables ∧ m.log = p.log := by
  rcases metaStep_cases uc line p m h with e | e
  · rw [e]; exact ⟨rfl, rfl, rfl, rfl⟩
  · rw [e]
    obtain ⟨h1, h2, -, h4, h5⟩ := applyMeta_countdown uc line p
    exact ⟨h1, h2, h4, h5⟩

theorem creditedLines_append (l : List Credit) (c : Credit) :
    creditedLines (l ++ [c]) = creditedLines l + c.lines := by
  simp [creditedLines]

/-- One line of any report: a credit made on it is the count of tab-prefixed
lines read since the header block last ran, and that count stays the
difference between `successiveLines` and the countdown. -/
theorem lineStep_span (uc : Bool) (fp : Str) (isLast : Bool) (line : Str) (p q : Parser)
    (n : Nat) (hinv : p.successiveLines - p.linesUntilHeader = (n : Int))
    (h : lineStep uc fp isLast line p = some q) :
    (∀ cr ∈ q.log, cr ∈ p.log ∨ cr.lines = (n : Int)) ∧
    creditedLines q.log + (tabsAfter line p n : Int)
      = creditedLines p.log + (n : Int) + (if hasTabPrefix line then 1 else 0) ∧
    (isLast = false → q.successiveLines - q.linesUntilHeader = (tabsAfter line p n : Int)) ∧
    StatsLe p.tables q.tables := by
  unfold lineStep at h
  by_cases htab : hasTabPrefix line = true
  · rw [if_pos htab] at h
    simp only [Option.some.injEq] at h
    subst h
    refine ⟨fun cr hcr => Or.inl hcr, ?_, ?_, statsLe_refl _⟩
    · simp only [tabsAfter, htab, if_true]
      push_cast
      ring
    · intro _
      simp only [tabsAfter, htab, if_true]
      push_cast
      omega
  · rw [if_neg htab] at h
    cases hm : metaStep uc line (fields line) p with
    | none => rw [hm] at h; exact absurd h (by simp)
    | some m =>
      rw [hm] at h
      obtain ⟨k1, k2, k3, k4⟩ := metaStep_keeps uc line p m hm
      have h' : creditStep fp isLast (fields line) m = some q := h
      unfold creditStep at h'
      by_cases h0 : m.linesUntilHeader = 0
      · rw [if_pos h0] at h'
        have hp0 : p.linesUntilHeader = 0 := by rw [← k1]; exact h0
        have hamount : (creditOf m).lines = (n : Int) := by
          show m.successiveLines = _
          rw [k2]; omega
        have hlq : q.log = p.log ++ [creditOf m] ∧
            q.tables = aggregate p.tables m.commitAuthor m.commitHash fp m.successiveLines ∧
            (isLast = false → q.successiveLines - q.linesUntilHeader = 0) := by
          cases isLast with
          | true =>
            simp only [if_true, Option.some.injEq] at h'
            subst h'
            exact ⟨by rw [← k4], by rw [← k3], fun e => absurd e (by decide)⟩
          | false =>
            simp only [Bool.false_eq_true, if_false] at h'
            unfold headerStep at h'
            split at h'
            · exact absurd h' (by simp)
            · simp only [Option.some.injEq] at h'
              subst h'
              exact ⟨by rw [← k4], by rw [← k3], fun _ => sub_self _⟩
        obtain ⟨hl, ht, hd⟩ := hlq
        refine ⟨?_, ?_, ?_, ?_⟩
        · intro cr hcr
          rw [hl, List.mem_append, List.mem_singleton] at hcr
          rcases hcr with hcr | hcr
          · exact Or.inl hcr
          · right; rw [hcr]; exact hamount
        · rw [hl, creditedLines_append, hamount]
          simp [tabsAfter, htab, hp0]
        · intro e
          rw [hd e]
          simp [tabsAfter, htab, hp0]
        · rw [ht]
          refine statsLe_aggregate _ _ _ _ _ ?_
          have : m.successiveLines = (n : Int) := hamount
          omega
      · rw [if_neg h0] at h'
        simp only [Option.some.injEq] at h'
        subst h'
        have hp0 : ¬ p.linesUntilHeader = 0 := by rw [← k1]; exact h0
        refine ⟨fun cr hcr => Or.inl (k4 ▸ hcr), ?_, ?_, ?_⟩
        · rw [k4]
          simp [tabsAfter, htab, hp0]
        · intro _
          rw [k1, k2, hinv]
          simp [tabsAfter, htab, hp0]
        · rw [k3]; exact statsLe_refl _

theorem contentLineCount_cons (l : Str) (ls : List Str) :
    (contentLineCount (l :: ls) : Int)
      = (if hasTabPrefix l then 1 else 0) + (contentLineCount ls : Int) := by
  unfold contentLineCount
  by_cases h : hasTabPrefix l = true
  · simp [List.filter_cons, h]; ring
  · simp [List.filter_cons, h]

/-- The invariant of the loop of `processFile` on any lines. -/
theorem tabsSinceHeader_inv (uc : Bool) (fp : Str) (lines : List Str) (p0 p : Parser)
    (n0 n : Nat) (hinv : p0.successiveLines - p0.linesUntilHeader = (n0 : Int))
    (hlog : ∀ cr ∈ p0.log, 0 ≤ cr.lines)
    (h : tabsSinceHeader uc fp lines p0 n0 = some (p, n)) :
    blameSteps uc fp lines p0 = some p ∧
    p.successiveLines - p.linesUntilHeader = (n : Int) ∧
    (∀ cr ∈ p.log, 0 ≤ cr.lines) ∧
    creditedLines p.log + (n : Int)
      = creditedLines p0.log + (n0 : Int) + (contentLineCount lines : Int) ∧
    StatsLe p0.tables p.tables := by
  induction lines generalizing p0 n0 with
  | nil =>
    simp only [tabsSinceHeader, Option.some.injEq, Prod.mk.injEq] at h
    obtain ⟨rfl, rfl⟩ := h
    exact ⟨rfl, hinv, hlog, by simp [contentLineCount], statsLe_refl _⟩
  | cons l ls ih =>
    simp only [tabsSinceHeader] at h
    cases hm : lineStep uc fp false l p0 with
    | none => rw [hm] at h; exact absurd h (by simp)
    | some m =>
      rw [hm] at h
      obtain ⟨s1, s2, s3, s4⟩ := lineStep_span uc fp false l p0 m n0 hinv hm
      have hlogm : ∀ cr ∈ m.log, 0 ≤ cr.lines := by
        intro cr hcr
        rcases s1 cr hcr with e | e
        · exact hlog cr e
        · rw [e]; exact Int.natCast_nonneg _
      obtain ⟨r1, r2, r3, r4, r5⟩ := ih m (tabsAfter l p0 n0) (s3 rfl) hlogm h
      refine ⟨by simp only [blameSteps, hm, r1], r2, r3, ?_, statsLe_trans s4 r5⟩
      rw [r4, contentLineCount_cons]
      linarith

/-- C20: after any lines of any report, `n` being the number of tab-prefixed
lines read since the header block last ran: an aggregation block that runs on
the next line adds exactly `n` to the lines counter; every amount credited so
far is non-negative; the amounts credited so far and `n` add up to the
tab-prefixed lines read; no counter of any author has decreased; and at the
end of the report the total credited is at most the number of tab-prefixed
lines. -/
theorem credits_count_tab_lines (uc : Bool) (fp : Str) (t : Tables) (pre : List Str)
    (p : Parser) (n : Nat)
    (hrun : tabsSinceHeader uc fp pre (initParser t) 0 = some (p, n)) :
    (∀ line m, hasTabPrefix line = false → metaStep uc line (fields line) p = some m →
      m.linesUntilHeader = 0 → (creditOf m).lines = (n : Int)) ∧
    (∀ cr ∈ p.log, 0 ≤ cr.lines) ∧
    creditedLines p.log + (n : Int) = (contentLineCount pre : Int) ∧
    StatsLe t p.tables ∧
    (∀ line q, blameLoop uc fp (pre ++ [line]) (initParser t) = some q →
      (∀ cr ∈ q.log, 0 ≤ cr.lines) ∧
      creditedLines q.log ≤ (contentLineCount (pre ++ [line]) : Int) ∧
      StatsLe t q.tables) := by
  obtain ⟨r1, r2, r3, r4, r5⟩ :=
    tabsSinceHeader_inv uc fp pre (initParser t) p 0 n rfl
      (by intro cr hcr; simp [initParser] at hcr) hrun
  have r4' : creditedLines p.log + (n : Int) = (contentLineCount pre : Int) := by
    rw [r4]; simp [initParser, creditedLines]
  refine ⟨?_, r3, r4', r5, ?_⟩
  · intro line m _ hm h0
    obtain ⟨k1, k2, -, -⟩ := metaStep_keeps uc line p m hm
    show m.successiveLines = _
    rw [k2]
    rw [k1] at h0
    omega
  · intro line q hq
    rw [blameLoop_append_last, r1, Option.some_bind] at hq
    obtain ⟨s1, s2, -, s4⟩ := lineStep_span uc fp true line p q n r2 hq
    refine ⟨?_, ?_, statsLe_trans r5 s4⟩
    · intro cr hcr
      rcases s1 cr hcr with e | e
      · exact r3 cr e
      · rw [e]; exact Int.natCast_nonneg _
    · rw [contentLineCount_append]
      have h1 : (0 : Int) ≤ (tabsAfter line p n : Int) := Int.natCast_nonneg _
      have h2 : (contentLineCount [line] : Int) = (if hasTabPrefix line then 1 else 0) := by
        rw [contentLineCount_cons]; simp [contentLineCount]
      push_cast
      rw [h2]
      linarith

theorem credits_count_tab_lines_witness :
    ∃ p n, tabsSinceHeader false "f.go".toList
        ["abc 1 1 1".toList, "author Jane".toList, "\tone".toList, "xyz 2 2 -3".toList,
          "\ttwo".toList, "\tthree".toList] (initParser emptyTables) 0 = some (p, n) ∧
      n = 2 ∧ p.log.map Credit.lines = [0, 1] ∧
      (∀ cr ∈ p.log, 0 ≤ cr.lines) ∧
      creditedLines p.log + (n : Int)
        = (contentLineCount ["abc 1 1 1".toList, "author Jane".toList, "\tone".toList,
            "xyz 2 2 -3".toList, "\ttwo".toList, "\tthree".toList] : Int) ∧
      StatsLe emptyTables p.tables :=
  ⟨_, _, rfl, rfl, rfl,
    (credits_count_tab_lines false "f.go".toList emptyTables
      ["abc 1 1 1".toList, "author Jane".toList, "\tone".toList, "xyz 2 2 -3".toList,
        "\ttwo".toList, "\tthree".toList] _ _ rfl).2.1,
    (credits_count_tab_lines false "f.go".toList emptyTables
      ["abc 1 1 1".toList, "author Jane".toList, "\tone".toList, "xyz 2 2 -3".toList,
        "\ttwo".toList, "\tthree".toList] _ _ rfl).2.2.1,
    (credits_count_tab_lines false "f.go".toList emptyTables
      ["abc 1 1 1".toList, "author Jane".toList, "\tone".toList, "xyz 2 2 -3".toList,
        "\ttwo".toList, "\tthree".toList] _ _ rfl).2.2.2.1⟩

/-! ## The language filter -/

theorem matchedOnce_foldl (es : List Str) (fp : Str) (b : Bool) :
    es.foldl (fun matched e => if hasSuffix fp e then true else matched) b
      = (b || es.any (fun e => hasSuffix fp e)) := by
  induction es generalizing b with
  | nil => simp
  | cons e es ih =>
    simp only [List.foldl_cons, List.any_cons, ih]
    by_cases h : hasSuffix fp e = true
    · simp [h]
    · simp [h]

/-- With a non-nil `*extensions` a file passes exactly when its path ends with
one of the extensions. -/
theorem matchedOnce_iff (es : List Str) (fp : Str) :
    matchedOnce es fp = true ↔ ∃ e ∈ es, hasSuffix fp e = true := by
  unfold matchedOnce
  rw [matchedOnce_foldl]
  simp

/-- C18: evaluation of the filter with `--languages` and no `--extensions`,
for every lower-casing function that maps the table names `Go` and `Markdown`
to `go` and `markdown`, as `strings.ToLower` does: for a language that is not
in the table (`klingon`, or `Go` with a capital) `*extensions` stays nil and the
file `notes.txt` reaches `processFile`, while for the language `go` only paths
that end with `.go` do. -/
theorem unknown_language_passes_every_file (lower : Str → Str)
    (hgo : lower "Go".toList = "go".toList)
    (hmd : lower "Markdown".toList = "markdown".toList) :
    fileFilter lower [⟨"Go".toList, "programming".toList, [".go".toList]⟩,
        ⟨"Markdown".toList, "prose".toList, [".md".toList, ".markdown".toList]⟩]
      (some ["klingon".toList]) none "notes.txt".toList = (none, true) ∧
    fileFilter lower [⟨"Go".toList, "programming".toList, [".go".toList]⟩,
        ⟨"Markdown".toList, "prose".toList, [".md".toList, ".markdown".toList]⟩]
      (some ["Go".toList]) none "notes.txt".toList = (none, true) ∧
    fileFilter lower [⟨"Go".toList, "programming".toList, [".go".toList]⟩,
        ⟨"Markdown".toList, "prose".toList, [".md".toList, ".markdown".toList]⟩]
      (some ["go".toList]) none "notes.txt".toList = (some [".go".toList], false) ∧
    fileFilter lower [⟨"Go".toList, "programming".toList, [".go".toList]⟩,
        ⟨"Markdown".toList, "prose".toList, [".md".toList, ".markdown".toList]⟩]
      (some ["go".toList]) none "main.go".toList = (some [".go".toList], true) := by
  simp only [fileFilter, addLanguageExtensions, List.foldl_cons, List.foldl_nil, hgo, hmd]
  decide

theorem unknown_language_passes_every_file_witness :
    toLowerASCII "Go".toList = "go".toList ∧
    toLowerASCII "Markdown".toList = "markdown".toList ∧
    fileFilter toLowerASCII [⟨"Go".toList, "programming".toList, [".go".toList]⟩,
        ⟨"Markdown".toList, "prose".toList, [".md".toList, ".markdown".toList]⟩]
      (some ["klingon".toList]) none "notes.txt".toList = (none, true) ∧
    fileFilter toLowerASCII [⟨"Go".toList, "programming".toList, [".go".toList]⟩,
        ⟨"Markdown".toList, "prose".toList, [".md".toList, ".markdown".toList]⟩]
      (some ["Go".toList]) none "notes.txt".toList = (none, true) ∧
    fileFilter toLowerASCII [⟨"Go".toList, "programming".toList, [".go".toList]⟩,
        ⟨"Markdown".toList, "prose".toList, [".md".toList, ".markdown".toList]⟩]
      (some ["go".toList]) none "notes.txt".toList = (some [".go".toList], false) ∧
    fileFilter toLowerASCII [⟨"Go".toList, "programming".toList, [".go".toList]⟩,
        ⟨"Markdown".toList, "prose".toList, [".md".toList, ".markdown".toList]⟩]
      (some ["go".toList]) none "main.go".toList = (some [".go".toList], true) :=
  ⟨by decide, by decide, unknown_language_passes_every_file toLowerASCII (by decide) (by decide)⟩

/-! ## An address with a space, and the tables returned on any report -/

/-- C8, counterexample: with a history line `Author: Bob <bob smith@x.com>`,
whose address holds a space, the identity credited is `Bob <bob`, not `Bob`. -/
theorem empty_file_mail_with_space :
    processFile false "README".toList []
        (some "commit def456\nAuthor: Bob <bob smith@x.com>\n".toList) emptyTables
      = some ⟨[("Bob <bob".toList, ⟨0, 1, 1⟩)], [("Bob <bob".toList, ["def456".toList])], []⟩ ∧
    statOf ⟨[("Bob <bob".toList, ⟨0, 1, 1⟩)], [("Bob <bob".toList, ["def456".toList])], []⟩
      "Bob".toList = ⟨0, 0, 0⟩ := by
  decide

/-- One line of a report leaves the log and the tables as they are, or adds
one credit to the log and runs the aggregation block with that credit. -/
theorem lineStep_log_tables (uc : Bool) (fp : Str) (isLast : Bool) (line : Str) (p q : Parser)
    (h : lineStep uc fp isLast line p = some q) :
    (q.log = p.log ∧ q.tables = p.tables) ∨
    ∃ cr, q.log = p.log ++ [cr] ∧
      q.tables = aggregate p.tables cr.author cr.commit fp cr.lines := by
  unfold lineStep at h
  by_cases htab : hasTabPrefix line = true
  · rw [if_pos htab] at h
    simp only [Option.some.injEq] at h
    subst h
    exact Or.inl ⟨rfl, rfl⟩
  · rw [if_neg htab] at h
    cases hm : metaStep uc line (fields line) p with
    | none => rw [hm] at h; exact absurd h (by simp)
    | some m =>
      rw [hm] at h
      obtain ⟨-, -, k3, k4⟩ := metaStep_keeps uc line p m hm
      have h' : creditStep fp isLast (fields line) m = some q := h
      unfold creditStep at h'
      by_cases h0 : m.linesUntilHeader = 0
      · rw [if_pos h0] at h'
        right
        refine ⟨creditOf m, ?_⟩
        cases isLast with
        | true =>
          simp only [if_true, Option.some.injEq] at h'
          subst h'
          exact ⟨by rw [← k4], by rw [← k3]; rfl⟩
        | false =>
          simp only [Bool.false_eq_true, if_false] at h'
          unfold headerStep at h'
          split at h'
          · exact absurd h' (by simp)
          · simp only [Option.some.injEq] at h'
            subst h'
            exact ⟨by rw [← k4], by rw [← k3]; rfl⟩
      · rw [if_neg h0] at h'
        simp only [Option.some.injEq] at h'
        subst h'
        exact Or.inl ⟨k4, k3⟩

theorem replayCredits_append (fp : Str) (t : Tables) (log : List Credit) (cr : Credit) :
    replayCredits fp t (log ++ [cr])
      = aggregate (replayCredits fp t log) cr.author cr.commit fp cr.lines := by
  simp [replayCredits, List.foldl_append]

/-- The tables of the parser are those of the start with the credits of its
log replayed. -/
theorem lineStep_replay (uc : Bool) (fp : Str) (isLast : Bool) (line : Str) (p q : Parser)
    (t : Tables) (h : lineStep uc fp isLast line p = some q)
    (hp : p.tables = replayCredits fp t p.log) : q.tables = replayCredits fp t q.log := by
  rcases lineStep_log_tables uc fp isLast line p q h with ⟨e1, e2⟩ | ⟨cr, e1, e2⟩
  · rw [e1, e2]; exact hp
  · rw [e1, e2, replayCredits_append, hp]

theorem blameSteps_replay (uc : Bool) (fp : Str) (lines : List Str) (p q : Parser) (t : Tables)
    (h : blameSteps uc fp lines p = some q)
    (hp : p.tables = replayCredits fp t p.log) : q.tables = replayCredits fp t q.log := by
  induction lines generalizing p with
  | nil =>
    simp only [blameSteps, Option.some.injEq] at h
    subst h
    exact hp
  | cons l ls ih =>
    simp only [blameSteps] at h
    cases hm : lineStep uc fp false l p with
    | none => rw [hm] at h; exact absurd h (by simp)
    | some m =>
      rw [hm] at h
      exact ih m h (lineStep_replay uc fp false l p m t hm hp)

/-- The count of `tabsSinceHeader` exists whenever the loop returns. -/
theorem blameSteps_tabs (uc : Bool) (fp : Str) (lines : List Str) (p q : Parser) (n0 : Nat)
    (h : blameSteps uc fp lines p = some q) :
    ∃ n, tabsSinceHeader uc fp lines p n0 = some (q, n) := by
  induction lines generalizing p n0 with
  | nil =>
    simp only [blameSteps, Option.some.injEq] at h
    subst h
    exact ⟨n0, rfl⟩
  | cons l ls ih =>
    simp only [blameSteps] at h
    cases hm : lineStep uc fp false l p with
    | none => rw [hm] at h; exact absurd h (by simp)
    | some m =>
      rw [hm] at h
      obtain ⟨n, hn⟩ := ih m (tabsAfter l p n0) h
      exact ⟨n, by simp only [tabsSinceHeader, hm, hn]⟩

/-- C14, amended: on every report, well-formed or with malformed header lines,
in which each line that is not tab-prefixed has at least one field,
`processFile` does not end with an error: it returns; the tables it returns
are the tables before the call with the aggregation block run once for each
credit of the run, in order; each credited line count is non-negative and no
counter of any author decreases. -/
theorem processFile_returns_without_error (uc : Bool) (fp : Str) (logOut : Option Str)
    (t : Tables) (lines : List Str) (hne : lines ≠ [])
    (hnl : ∀ l ∈ lines, '\n' ∉ l)
    (hwords : ∀ l ∈ lines, hasTabPrefix l = true ∨ fields l ≠ []) :
    ∃ q, blameLoop uc fp (splitNL (unlines lines)) (initParser t) = some q ∧
      processFile uc fp (unlines lines) logOut t = some q.tables ∧
      q.tables = replayCredits fp t q.log ∧
      (∀ cr ∈ q.log, 0 ≤ cr.lines) ∧
      StatsLe t q.tables := by
  have htext : unlines lines ≠ [] := by
    cases lines with
    | nil => exact absurd rfl hne
    | cons l ls => exact unlines_ne_nil l ls
  obtain ⟨m, hm⟩ := blameSteps_returns uc fp lines (initParser t) hwords
  obtain ⟨q, hq⟩ := lineStep_last_returns uc fp m
  have hloop : blameLoop uc fp (splitNL (unlines lines)) (initParser t) = some q := by
    rw [splitNL_unlines lines hnl, blameLoop_append_last, hm]
    exact hq
  obtain ⟨n, hn⟩ := blameSteps_tabs uc fp lines (initParser t) m 0 hm
  obtain ⟨-, r2, r3, -, r5⟩ := tabsSinceHeader_inv uc fp lines (initParser t) m 0 n rfl
    (by intro cr hcr; simp [initParser] at hcr) hn
  obtain ⟨s1, -, -, s4⟩ := lineStep_span uc fp true [] m q n r2 hq
  refine ⟨q, hloop, ?_, ?_, ?_, statsLe_trans r5 s4⟩
  · unfold processFile
    rw [if_neg htext, hloop]
    rfl
  · exact lineStep_replay uc fp true [] m q t hq
      (blameSteps_replay uc fp lines (initParser t) m t hm rfl)
  · intro cr hcr
    rcases s1 cr hcr with e | e
    · exact r3 cr e
    · rw [e]; exact Int.natCast_nonneg _

theorem processFile_returns_without_error_witness :
    (["abc 1 1 1".toList, "author Jane".toList, "\tone".toList, "xyz 2 2 1 9".toList,
      "\ttwo".toList] ≠ []) ∧
    ∃ q, blameLoop false "f.go".toList
        (splitNL (unlines ["abc 1 1 1".toList, "author Jane".toList, "\tone".toList,
          "xyz 2 2 1 9".toList, "\ttwo".toList])) (initParser emptyTables) = some q ∧
      processFile false "f.go".toList
        (unlines ["abc 1 1 1".toList, "author Jane".toList, "\tone".toList,
          "xyz 2 2 1 9".toList, "\ttwo".toList]) none emptyTables = some q.tables ∧
      q.tables = replayCredits "f.go".toList emptyTables q.log ∧
      (∀ cr ∈ q.log, 0 ≤ cr.lines) ∧
      StatsLe emptyTables q.tables :=
  ⟨by decide,
    processFile_returns_without_error false "f.go".toList none emptyTables
      ["abc 1 1 1".toList, "author Jane".toList, "\tone".toList, "xyz 2 2 1 9".toList,
        "\ttwo".toList] (by decide) (by decide) (by decide)⟩

end Gitfame
